import Mathlib

/-!
Shallow embedding of the idid time-tracking CLI (src/idid/tsv.py,
src/idid/cli.py, src/idid/entry.py) and proofs about its specification.

Text is modelled as a list of characters.  Python exceptions are modelled
with an explicit error type and the Except monad.  Calendar dates are
modelled by year/month/day records ordered lexicographically (which is
the chronological order Python's datetime.date uses), with day arithmetic
performed on proleptic-Gregorian day numbers.
-/

deriving instance DecidableEq for Except

namespace Idid

/-- Text, modelled as a list of characters. -/
abbrev Str := List Char

/-- Python str.isdigit for ASCII text: non-empty and all characters digits. -/
def pyIsDigit (s : Str) : Bool :=
  !s.isEmpty && s.all Char.isDigit

/-- Python int(...) on a string of decimal digits. -/
def strToNat (s : Str) : Nat :=
  s.foldl (fun n c => n * 10 + (c.toNat - 48)) 0

/-- Python str.lower (ASCII). -/
def pyLower (s : Str) : Str :=
  s.map Char.toLower

/-- Python str.split(sep) for a single-character separator: split at every
occurrence, keeping empty pieces; the empty string gives one empty piece. -/
def splitOnChar (sep : Char) : Str → List Str
  | [] => [[]]
  | c :: cs =>
    if c = sep then [] :: splitOnChar sep cs
    else
      match splitOnChar sep cs with
      | [] => [[c]]
      | l :: ls => (c :: l) :: ls

/-! ## Calendar dates (Python datetime.date) -/

/-- A calendar date as Python's datetime.date stores it. -/
structure PyDate where
  year : Int
  month : Nat
  day : Nat
deriving DecidableEq, Inhabited

/-- Python date comparison: lexicographic on (year, month, day), which is
chronological order. -/
def PyDate.ltb (a b : PyDate) : Bool :=
  a.year < b.year ||
    (a.year = b.year && (a.month < b.month ||
      (a.month = b.month && a.day < b.day)))

/-- Python date less-or-equal. -/
def PyDate.leb (a b : PyDate) : Bool :=
  PyDate.ltb a b || a = b

/-- The error values the embedded code can raise. -/
inductive PyErr where
  /-- Python ValueError: raised by the datetime.date / datetime.datetime
  constructors on calendar-invalid input and by tuple unpacking of a
  split with the wrong number of fields. -/
  | valueError
  /-- Python FileNotFoundError from open() on an absent path. -/
  | fileNotFound
  /-- Exception with message: the quoted text followed by "is invalid". -/
  | invalidDate (text : Str)
  /-- Exception with message: the count "must be positive number". -/
  | notPositive (n : Nat)
  /-- Exception with message: the count "must be less than 1000". -/
  | tooLarge (n : Nat)
  /-- Exception with message: "Did you mean '-r " then the two dates
  swapped, then "' dates reversed?". -/
  | revRange (close start : PyDate)
deriving DecidableEq

/-- Gregorian leap year, as datetime uses. -/
def isLeap (y : Int) : Bool :=
  y % 4 = 0 && (y % 100 ≠ 0 || y % 400 = 0)

/-- Days in a month of a given year. -/
def daysInMonth (y : Int) (m : Nat) : Nat :=
  if m = 2 then (if isLeap y then 29 else 28)
  else if m = 4 || m = 6 || m = 9 || m = 11 then 30
  else 31

/-- The datetime.date constructor: checks Python's year range and calendar
validity, raising ValueError otherwise. -/
def mkDate (y : Int) (m d : Nat) : Except PyErr PyDate :=
  if 1 ≤ y && y ≤ 9999 && 1 ≤ m && m ≤ 12 && 1 ≤ d && d ≤ daysInMonth y m then
    .ok ⟨y, m, d⟩
  else
    .error .valueError

/-- Proleptic-Gregorian day number of a date (days since 1970-01-01).
The standard shifted-year scheme: years start in March so the leap day
is the last day of the shifted year; a 400-year era of 146097 days
splits into 4 centuries (the last one a day longer), a century into 25
quadrennia (in a non-final century the last one a day shorter), and a
quadrennium into 4 years (the last one a day longer). -/
def PyDate.toOrdinal (dt : PyDate) : Int :=
  let y : Int := if dt.month ≤ 2 then dt.year - 1 else dt.year
  let era : Int := y / 400
  let yoe : Nat := (y - era * 400).toNat
  let c : Nat := yoe / 100
  let q : Nat := (yoe % 100) / 4
  let yq : Nat := yoe % 4
  let mp : Nat := if dt.month > 2 then dt.month - 3 else dt.month + 9
  let doy : Nat := (153 * mp + 2) / 5 + dt.day - 1
  let doe : Nat := 36524 * c + 1461 * q + 365 * yq + doy
  era * 146097 + (doe : Int) - 719468

/-- Date from a proleptic-Gregorian day number (inverse decomposition of
toOrdinal: era, then century, then quadrennium, then year, then the
month/day from the day-of-shifted-year). -/
def PyDate.fromOrdinal (z : Int) : PyDate :=
  let n := z + 719468
  let era : Int := n / 146097
  let doe : Nat := (n - era * 146097).toNat
  let c : Nat := min (doe / 36524) 3
  let doc : Nat := doe - 36524 * c
  let q : Nat := doc / 1461
  let doq : Nat := doc - 1461 * q
  let yq : Nat := min (doq / 365) 3
  let doy : Nat := doq - 365 * yq
  let yoe : Nat := 100 * c + 4 * q + yq
  let mp : Nat := (5 * doy + 2) / 153
  let d : Nat := doy - (153 * mp + 2) / 5 + 1
  let m : Nat := if mp < 10 then mp + 3 else mp - 9
  ⟨(yoe : Int) + era * 400 + (if m ≤ 2 then 1 else 0), m, d⟩

/-- Python date - timedelta(days=n).  Modelled as total on the proleptic
calendar (Python would raise OverflowError outside years 1..9999; no claim
exercises that corner). -/
def PyDate.subDays (dt : PyDate) (n : Nat) : PyDate :=
  PyDate.fromOrdinal (dt.toOrdinal - n)

/-- Python date + timedelta(days=n), same totality remark as subDays. -/
def PyDate.addDays (dt : PyDate) (n : Nat) : PyDate :=
  PyDate.fromOrdinal (dt.toOrdinal + n)

/-- Python date - timedelta(days=n) for a possibly negative integer count. -/
def PyDate.subDaysI (dt : PyDate) (n : Int) : PyDate :=
  PyDate.fromOrdinal (dt.toOrdinal - n)

/-- Python date.weekday(): 0 = Monday .. 6 = Sunday.
1970-01-01 was a Thursday (= 3). -/
def PyDate.weekday (dt : PyDate) : Int :=
  (dt.toOrdinal + 3) % 7

/-! ## Timestamps (Python datetime.datetime) and Entry (src/idid/entry.py) -/

/-- A second-precision timestamp: a calendar date plus seconds-of-day.
Comparison is lexicographic, as for Python datetimes. -/
structure PyDateTime where
  date : PyDate
  sod : Nat
deriving DecidableEq, Inhabited

/-- Python datetime strict comparison (lexicographic date, then time). -/
def PyDateTime.ltb (a b : PyDateTime) : Bool :=
  PyDate.ltb a.date b.date || (a.date = b.date && a.sod < b.sod)

/-- Python datetime less-or-equal. -/
def PyDateTime.leb (a b : PyDateTime) : Bool :=
  PyDateTime.ltb a b || a = b

/-- Helper: the numeric value of two digit characters. -/
def twoDigits (a b : Char) : Nat :=
  (a.toNat - 48) * 10 + (b.toNat - 48)

/-- Helper: the numeric value of four digit characters. -/
def fourDigits (a b c d : Char) : Nat :=
  ((a.toNat - 48) * 10 + (b.toNat - 48)) * 100 + twoDigits c d

/-- datetime.fromisoformat, restricted to the "YYYY-MM-DD HH:MM:SS" shape
the log writer produces; anything else raises ValueError. -/
def parseIsoDateTime (s : Str) : Except PyErr PyDateTime :=
  match s with
  | [y1, y2, y3, y4, '-', m1, m2, '-', d1, d2, ' ', h1, h2, ':', n1, n2, ':', s1, s2] =>
    if [y1, y2, y3, y4, m1, m2, d1, d2, h1, h2, n1, n2, s1, s2].all Char.isDigit then
      let hh := twoDigits h1 h2
      let nn := twoDigits n1 n2
      let ss := twoDigits s1 s2
      if hh ≤ 23 && nn ≤ 59 && ss ≤ 59 then
        match mkDate (fourDigits y1 y2 y3 y4) (twoDigits m1 m2) (twoDigits d1 d2) with
        | .error e => .error e
        | .ok d => .ok ⟨d, hh * 3600 + nn * 60 + ss⟩
      else .error .valueError
    else .error .valueError
  | _ => .error .valueError

/-- A recorded accomplishment entry (dataclass Entry in entry.py). -/
structure Entry where
  begin : PyDateTime
  cease : PyDateTime
  text : Str
deriving DecidableEq, Inhabited

/-- Python string strict comparison (lexicographic on characters). -/
def strLtb : Str → Str → Bool
  | [], [] => false
  | [], _ :: _ => true
  | _ :: _, [] => false
  | a :: as, b :: bs => a < b || (a = b && strLtb as bs)

/-- The dataclass(order=True) comparison: lexicographic on
(begin, cease, text) with Python string order on the text. -/
def Entry.leb (a b : Entry) : Bool :=
  PyDateTime.ltb a.begin b.begin ||
    (a.begin = b.begin && (PyDateTime.ltb a.cease b.cease ||
      (a.cease = b.cease && (strLtb a.text b.text || a.text = b.text))))

/-- Entry.from_tsv: split the line on tabs, unpack exactly two fields
(raising ValueError otherwise, as Python tuple unpacking does), parse the
first as a timestamp and build a zero-duration entry. -/
def Entry.from_tsv (line : Str) : Except PyErr Entry :=
  match splitOnChar '\t' line with
  | [cease_text, text] =>
    match parseIsoDateTime cease_text with
    | .error e => .error e
    | .ok ts => .ok ⟨ts, ts, text⟩
  | _ => .error .valueError

/-! ## src/idid/tsv.py -/

/-- Default of the ididSTART environment variable (get_default_start_text). -/
def default_start_text : Str := "*~*~*--------------------".toList

/-- DateRange from tsv.py: an inclusive range of calendar dates. -/
structure DateRange where
  begin : PyDate
  close : PyDate
deriving DecidableEq, Inhabited

/-- DateRange.days: number of days included in this range. -/
def DateRange.days (r : DateRange) : Int :=
  (r.close.toOrdinal - r.begin.toOrdinal) + 1

/-- DateRange.__contains__: the timestamp's calendar date lies between
begin and close inclusive. -/
def DateRange.containsDT (r : DateRange) (ts : PyDateTime) : Bool :=
  PyDate.leb r.begin ts.date && PyDate.leb ts.date r.close

/-- DateRange.__lt__: ordered by begin date (used by list.sort()). -/
def DateRange.ltb (a b : DateRange) : Bool :=
  PyDate.ltb a.begin b.begin

/-- Append s to the last element of a non-empty list of pieces (the
Python statement lines[-1] += segment); on [] it produces [s]. -/
def mergeLast : List Str → Str → List Str
  | [], s => [s]
  | [l], s => [l ++ s]
  | l :: ls, s => l :: mergeLast ls s

/-- One backward pass of reverse_readline's while loop.  The unread
prefix of the file plays the role of remaining_size/offset: each
iteration takes the last min(remaining, buf_size) characters of it as
the chunk to split.  fuel bounds the number of iterations; it is set to
the file size, which suffices whenever buf_size ≥ 1. -/
def rrLoop (buf : Nat) : Nat → Str → Option Str → List Str
  | 0, _, segment => segment.toList
  | fuel + 1, p, segment =>
    if p.isEmpty then segment.toList
    else
      let buffer := p.drop (p.length - buf)
      let rest := p.take (p.length - buf)
      let lns := splitOnChar '\n' buffer
      let endsNl := buffer.getLast? = some '\n'
      let segYield : List Str :=
        match segment with
        | some s => if endsNl then [s] else []
        | none => []
      let lns' :=
        match segment with
        | some s => if endsNl then lns else mergeLast lns s
        | none => lns
      let yields := lns'.tail.reverse.filter (fun l => !l.isEmpty)
      segYield ++ yields ++ rrLoop buf fuel rest (some lns'.headI)

/-- reverse_readline: the lines of a file in reverse order, as the list
of strings the generator yields. -/
def reverse_readline (content : Str) (buf_size : Nat) : List Str :=
  rrLoop buf_size content.length content none

/-- A line source: either the lines a reverse_readline generator will
yield, or the exception its first resumption raises (the generator body,
including open(), only runs at the first next()). -/
abbrev LineSource := Except PyErr (List Str)

/-- Calling reverse_readline on a path: an absent file raises
FileNotFoundError at the first resumption; otherwise the file's contents
are streamed with the default 8192-byte buffer. -/
def reverse_readline_path (file : Option Str) : LineSource :=
  match file with
  | none => .error .fileNotFound
  | some content => .ok (reverse_readline content 8192)

/-- is_start from get_entries: the entry is a day-start marker. -/
def is_start (e : Entry) : Bool :=
  default_start_text.isPrefixOf e.text

/-- The emission condition of get_entries (the big if in the loop body),
evaluated on the pending entry after its begin has been set. -/
def entryMatches (ranges : List DateRange) (filters : List (Str → Bool))
    (l : Entry) : Bool :=
  !(is_start l) && ranges.any (fun r => r.containsDT l.begin) &&
    filters.all (fun f => f l.text)

/-- The for-loop of get_entries: walk the reversed lines, give the
pending (chronologically later) entry its begin time from the current
line's cease time, emit it when it matches, stop early once the current
line's date precedes the earliest requested begin, and drop the pending
entry across marker lines. -/
def getEntriesLoop (ranges : List DateRange) (filters : List (Str → Bool)) :
    List Str → Option Entry → List Entry → Except PyErr (List Entry)
  | [], _, matching => .ok matching
  | line :: restLines, last?, matching =>
    match Entry.from_tsv line with
    | .error e => .error e
    | .ok entry =>
      let last2 := last?.map fun l => { l with begin := entry.cease }
      let matching2 :=
        match last2 with
        | some l => if entryMatches ranges filters l then matching ++ [l] else matching
        | none => matching
      if PyDate.ltb entry.cease.date ranges.headI.begin then .ok matching2
      else
        getEntriesLoop ranges filters restLines
          (if is_start entry then none else some entry) matching2

/-- get_entries from tsv.py: empty range list returns [] without touching
the source; otherwise sort the ranges by begin, run the backward pass and
sort the matches into chronological order. -/
def get_entries (date_ranges : List DateRange) (filters : List (Str → Bool))
    (source : LineSource) : Except PyErr (List Entry) :=
  if date_ranges.isEmpty then .ok []
  else
    let ranges := date_ranges.insertionSort (fun a b => !DateRange.ltb b a)
    match source with
    | .error e => .error e
    | .ok lines =>
      match getEntriesLoop ranges filters lines none [] with
      | .error e => .error e
      | .ok matching => .ok (matching.insertionSort (fun a b => Entry.leb a b))

/-- get_entries_from: get_entries driven by reverse_readline over a path. -/
def get_entries_from (file : Option Str) (date_ranges : List DateRange)
    (filters : List (Str → Bool)) : Except PyErr (List Entry) :=
  get_entries date_ranges filters (reverse_readline_path file)

/-! ## src/idid/cli.py — the date-expression grammar -/

/-- The month character class of _regex_yyyy_mm_dd: 0[1-9]|1[0-2]. -/
def monthClass (a b : Char) : Bool :=
  (a = '0' && '1' ≤ b && b ≤ '9') || (a = '1' && '0' ≤ b && b ≤ '2')

/-- The day character class of _regex_yyyy_mm_dd: [12]\d|0[1-9]|3[01]. -/
def dayClass (a b : Char) : Bool :=
  ((a = '1' || a = '2') && b.isDigit) ||
    (a = '0' && '1' ≤ b && b ≤ '9') || (a = '3' && (b = '0' || b = '1'))

/-- re.fullmatch against _regex_yyyy_mm_dd.  The pattern admits exactly
four shapes: YYYYMMDD, YYYY-MM-DD (the backreference forces the dashes to
be consistently present or absent), MMDD and MM-DD.  Returns the optional
year and the month/day values on a match. -/
def regexYyyyMmDd (cs : Str) : Option (Option Int × Nat × Nat) :=
  match cs with
  | [y1, y2, y3, y4, m1, m2, d1, d2] =>
    if [y1, y2, y3, y4].all Char.isDigit && monthClass m1 m2 && dayClass d1 d2 then
      some (some (fourDigits y1 y2 y3 y4), twoDigits m1 m2, twoDigits d1 d2)
    else none
  | [y1, y2, y3, y4, '-', m1, m2, '-', d1, d2] =>
    if [y1, y2, y3, y4].all Char.isDigit && monthClass m1 m2 && dayClass d1 d2 then
      some (some (fourDigits y1 y2 y3 y4), twoDigits m1 m2, twoDigits d1 d2)
    else none
  | [m1, m2, d1, d2] =>
    if monthClass m1 m2 && dayClass d1 d2 then
      some (none, twoDigits m1 m2, twoDigits d1 d2)
    else none
  | [m1, m2, '-', d1, d2] =>
    if monthClass m1 m2 && dayClass d1 d2 then
      some (none, twoDigits m1 m2, twoDigits d1 d2)
    else none
  | _ => none

/-- parse_yyyy_mm_dd: no regex match falls through with None; a full
YYYY-MM-DD form goes straight to the date constructor; a month/day-only
form resolves against the reference year, rolling back one year when the
candidate is not strictly in the past.  The date constructor can raise
ValueError (calendar-invalid input), which propagates. -/
def parse_yyyy_mm_dd (text : Str) (relative : PyDate) :
    Except PyErr (Option PyDate) :=
  match regexYyyyMmDd text with
  | none => .ok none
  | some (some y, m, d) =>
    match mkDate y m d with
    | .error e => .error e
    | .ok day => .ok (some day)
  | some (none, m, d) =>
    match mkDate relative.year m d with
    | .error e => .error e
    | .ok day =>
      if PyDate.leb relative day then
        match mkDate (relative.year - 1) m d with
        | .error e => .error e
        | .ok day2 => .ok (some day2)
      else .ok (some day)

/-- _dow_locale: the locale's abbreviated weekday names, Monday first
(C locale). -/
def dowLocale : List Str :=
  ["mon".toList, "tue".toList, "wed".toList, "thu".toList,
   "fri".toList, "sat".toList, "sun".toList]

/-- The weekday-name alternation of _regex_dow, tried in list order as a
regex alternation is: the Monday-based index of the name the text starts
with.  All names have three letters, so at most one can match. -/
def dowIdx (t : Str) : Option Nat :=
  if "mon".toList.isPrefixOf t then some 0
  else if "tue".toList.isPrefixOf t then some 1
  else if "wed".toList.isPrefixOf t then some 2
  else if "thu".toList.isPrefixOf t then some 3
  else if "fri".toList.isPrefixOf t then some 4
  else if "sat".toList.isPrefixOf t then some 5
  else if "sun".toList.isPrefixOf t then some 6
  else none

/-- re.fullmatch against _regex_dow on the lowered text: one of the
three-letter weekday names followed by an all-digit (possibly empty)
suffix.  Returns the Monday-based weekday index and the suffix. -/
def dowMatch (t : Str) : Option (Nat × Str) :=
  match dowIdx t with
  | none => none
  | some i =>
    let suffix := t.drop 3
    if suffix.all Char.isDigit then some (i, suffix) else none

/-- get_last_dow: days back from weekday `relative` to the previous
occurrence of weekday look_for (never 0: the same weekday counts as a
full week back). -/
def get_last_dow (look_for relative : Int) : Int :=
  let days := relative - look_for
  if days ≤ 0 then 7 - look_for + relative else days

/-- parse_dow: resolve an abbreviated weekday name with optional week
count against `relative`; a suffix of n ≥ 2 goes back n-1 extra weeks. -/
def parse_dow (text : Str) (relative : PyDate) : Option PyDate :=
  match dowMatch (pyLower text) with
  | none => none
  | some (i, suffix) =>
    let days := get_last_dow (i : Int) relative.weekday
    let days := if !suffix.isEmpty then
        days + 7 * (max 0 ((strToNat suffix : Int) - 1)) else days
    some (relative.subDaysI days)

/-- text_to_date.  `relative` is the explicit reference date (None in all
CLI call sites); `clock` models the ambient date.today().  Note the
source's day-of-week branch calls parse_dow(text) without forwarding the
reference, so that branch always resolves against the clock. -/
def text_to_date (text : Str) (relative : Option PyDate) (clock : PyDate) :
    Except PyErr (Option PyDate) :=
  let today := relative.getD clock
  if pyIsDigit text && text.length < 4 then
    .ok (some (today.subDays (strToNat text)))
  else
    let text := pyLower text
    if text = "today".toList then .ok (some today)
    else if "yester".toList.isPrefixOf text then .ok (some (today.subDays 1))
    else if pyIsDigit (text.take 2) then
      parse_yyyy_mm_dd text today
    else
      .ok (parse_dow text clock)

/-- The first loop of parse_date_ranges: resolve each comma-split -d
item, turn a resolved date into a one-day range and silently skip items
that resolve to None (exceptions from text_to_date propagate). -/
def parseDateArgs (clock : PyDate) : List Str → List DateRange →
    Except PyErr (List DateRange)
  | [], acc => .ok acc
  | item :: rest, acc =>
    match text_to_date item none clock with
    | .error e => .error e
    | .ok (some d) => parseDateArgs clock rest (acc ++ [DateRange.mk d d])
    | .ok none => parseDateArgs clock rest acc

/-- The second loop of parse_date_ranges: for each -r pair resolve the
start (unresolvable text raises), interpret the second argument as a day
count when it is all digits (raising outside 1..999) and as an explicit
end date otherwise (unresolvable text raises), and raise the
dates-reversed hint when the end precedes the start. -/
def parseRangeArgs (clock : PyDate) : List (Str × Str) → List DateRange →
    Except PyErr (List DateRange)
  | [], acc => .ok acc
  | (text, days) :: rest, acc =>
    match text_to_date text none clock with
    | .error e => .error e
    | .ok none => .error (.invalidDate text)
    | .ok (some start) =>
      let stop? : Except PyErr PyDate :=
        if !pyIsDigit days then
          match text_to_date days none clock with
          | .error e => .error e
          | .ok none => .error (.invalidDate days)
          | .ok (some e) => .ok e
        else
          let n := strToNat days
          if n ≤ 0 then .error (.notPositive n)
          else if n > 999 then .error (.tooLarge n)
          else .ok (start.addDays (n - 1))
      match stop? with
      | .error e => .error e
      | .ok stop =>
        if PyDate.ltb stop start then .error (.revRange stop start)
        else parseRangeArgs clock rest (acc ++ [DateRange.mk start stop])

/-- parse_date_ranges: the -d loop (over the comma-split items of every
-d argument, in order), then the -r loop, then sort by begin. -/
def parse_date_ranges (dateArgs : List Str) (rangeArgs : List (Str × Str))
    (clock : PyDate) : Except PyErr (List DateRange) :=
  match parseDateArgs clock ((dateArgs.map (splitOnChar ',')).flatten) [] with
  | .error e => .error e
  | .ok dr =>
    match parseRangeArgs clock rangeArgs dr with
    | .error e => .error e
    | .ok dr => .ok (dr.insertionSort (fun a b => !DateRange.ltb b a))


/-! ## Proof support: calendar arithmetic lemmas -/

/-- Day number of March 1st of shifted year y, relative to 0000-03-01
(proof support for the ordinal lemmas). -/
def yearStart (y : Int) : Int :=
  365 * y + y / 4 - y / 100 + y / 400

/-- Day of the shifted (March-first) year for a month/day pair
(proof support for the ordinal lemmas). -/
def doyOf (m d : Nat) : Nat :=
  (153 * (if m > 2 then m - 3 else m + 9) + 2) / 5 + d - 1

/-- Calendar validity of a date record: month in range and day within
the month (no year-range restriction). -/
def PyDate.isValid (dt : PyDate) : Bool :=
  1 ≤ dt.month && dt.month ≤ 12 && 1 ≤ dt.day && dt.day ≤ daysInMonth dt.year dt.month

theorem toOrdinal_decomp (dt : PyDate) :
    dt.toOrdinal =
      yearStart (if dt.month ≤ 2 then dt.year - 1 else dt.year) +
        (doyOf dt.month dt.day : Int) - 719468 := by
  obtain ⟨Y, m, d⟩ := dt
  simp only [PyDate.toOrdinal, doyOf, yearStart]
  by_cases hm : m ≤ 2
  · simp only [if_pos hm, if_neg (show ¬ m > 2 by omega)]
    omega
  · simp only [if_neg hm, if_pos (show m > 2 by omega)]
    omega

theorem yearStart_shift (w : Nat) (e : Int) (hw : w ≤ 399) :
    yearStart ((w : Int) + e * 400) =
      146097 * e + 365 * (w : Int) + ((w / 4 : Nat) : Int) - ((w / 100 : Nat) : Int) := by
  simp only [yearStart]
  omega

theorem yearStart_mono (y1 y2 : Int) (h : y1 ≤ y2) : yearStart y1 ≤ yearStart y2 := by
  simp only [yearStart]
  omega

theorem yearStart_step (y : Int) : 365 ≤ yearStart (y + 1) - yearStart y := by
  simp only [yearStart]
  omega

theorem fromOrdinal_toOrdinal (z : Int) :
    (PyDate.fromOrdinal z).toOrdinal = z := by
  rw [toOrdinal_decomp]
  simp only [PyDate.fromOrdinal]
  set era := (z + 719468) / 146097 with hera
  set doe := (z + 719468 - era * 146097).toNat with hdoe
  set c := min (doe / 36524) 3 with hc
  set doc := doe - 36524 * c with hdoc
  set q := doc / 1461 with hq
  set doq := doc - 1461 * q with hdoq
  set yq := min (doq / 365) 3 with hyq
  set doy := doq - 365 * yq with hdoy
  set yoe := 100 * c + 4 * q + yq with hyoe
  set mp := (5 * doy + 2) / 153 with hmp
  set d := doy - (153 * mp + 2) / 5 + 1 with hd
  set m := if mp < 10 then mp + 3 else mp - 9 with hm
  clear_value m d mp yoe doy yq doq q doc c doe era
  have hc2 : (doe / 36524 ≤ 3 ∧ c = doe / 36524) ∨ (3 ≤ doe / 36524 ∧ c = 3) := by
    rcases Nat.le_total (doe / 36524) 3 with h | h
    · exact Or.inl ⟨h, by rw [hc]; exact Nat.min_eq_left h⟩
    · exact Or.inr ⟨h, by rw [hc]; exact Nat.min_eq_right h⟩
  have hyq2 : (doq / 365 ≤ 3 ∧ yq = doq / 365) ∨ (3 ≤ doq / 365 ∧ yq = 3) := by
    rcases Nat.le_total (doq / 365) 3 with h | h
    · exact Or.inl ⟨h, by rw [hyq]; exact Nat.min_eq_left h⟩
    · exact Or.inr ⟨h, by rw [hyq]; exact Nat.min_eq_right h⟩
  clear hc hyq
  have hb1 : doe ≤ 146096 := by omega
  have hb2 : c ≤ 3 ∧ 36524 * c ≤ doe := by omega
  have hb3 : doc ≤ 36524 := by omega
  have hb4 : q ≤ 24 ∧ 1461 * q ≤ doc := by omega
  have hb5 : doq ≤ 1460 := by omega
  have hb6 : yq ≤ 3 ∧ 365 * yq ≤ doq := by omega
  have hb7 : doy ≤ 365 := by omega
  have hb8 : yoe ≤ 399 := by omega
  have hb9 : mp ≤ 11 ∧ (153 * mp + 2) / 5 ≤ doy := by omega
  have hsy : (if m ≤ 2 then ((yoe : Int) + era * 400 + (if m ≤ 2 then 1 else 0)) - 1
      else (yoe : Int) + era * 400 + (if m ≤ 2 then 1 else 0)) = (yoe : Int) + era * 400 := by
    by_cases h : m ≤ 2 <;> simp [h]
  rw [hsy, yearStart_shift yoe era hb8]
  have hdoy2 : (153 * mp + 2) / 5 + d - 1 = doy := by omega
  by_cases hmp10 : mp < 10
  · have hm3 : m = mp + 3 := by rw [hm, if_pos hmp10]
    simp only [doyOf, hm3, if_pos (show mp + 3 > 2 by omega), Nat.add_sub_cancel]
    rw [hdoy2]
    clear hsy hdoy2 hb9 hb7 hd hmp hm hm3 hmp10
    clear m d mp
    have hdoe3 : (doe : Int) = z + 719468 - era * 146097 := by omega
    have key : (36524 * c + 1461 * q + 365 * yq + doy : Nat) = doe := by omega
    have key2 : 365 * (yoe : Int) + ((yoe / 4 : Nat) : Int) - ((yoe / 100 : Nat) : Int) =
        36524 * (c : Int) + 1461 * (q : Int) + 365 * (yq : Int) := by
      have h4 : yq ≤ 3 := by omega
      have h5 : q ≤ 24 := by omega
      clear hc2 hyq2 hdoc hdoq hdoy hb1 hb2 hb3 hb5 hdoe hdoe3 key hera
      omega
    clear hc2 hyq2 hdoc hdoq hdoy hb1 hb2 hb3 hb4 hb5 hb6 hb8 hdoe hyoe hq
    omega
  · have hm3 : m = mp - 9 := by rw [hm, if_neg hmp10]
    have hmp11 : mp ≤ 11 := by omega
    simp only [doyOf, hm3, if_neg (show ¬ mp - 9 > 2 by omega),
      show mp - 9 + 9 = mp by omega]
    rw [hdoy2]
    clear hsy hdoy2 hb9 hb7 hd hmp hm hm3 hmp10 hmp11
    clear m d mp
    have hdoe3 : (doe : Int) = z + 719468 - era * 146097 := by omega
    have key : (36524 * c + 1461 * q + 365 * yq + doy : Nat) = doe := by omega
    have key2 : 365 * (yoe : Int) + ((yoe / 4 : Nat) : Int) - ((yoe / 100 : Nat) : Int) =
        36524 * (c : Int) + 1461 * (q : Int) + 365 * (yq : Int) := by
      have h4 : yq ≤ 3 := by omega
      have h5 : q ≤ 24 := by omega
      clear hc2 hyq2 hdoc hdoq hdoy hb1 hb2 hb3 hb5 hdoe hdoe3 key hera
      omega
    clear hc2 hyq2 hdoc hdoq hdoy hb1 hb2 hb3 hb4 hb5 hb6 hb8 hdoe hyoe hq
    omega

theorem yearStep_of_leap (y : Int) (h : isLeap (y + 1) = true) :
    366 ≤ yearStart (y + 1) - yearStart y := by
  simp only [isLeap, Bool.and_eq_true, Bool.or_eq_true, decide_eq_true_eq, ne_eq,
    Bool.not_eq_true, decide_eq_false_iff_not] at h
  simp only [yearStart]
  omega

theorem doyOf_lt_len (Y : Int) (m d : Nat) (h1 : 1 ≤ m) (h2 : m ≤ 12)
    (h3 : 1 ≤ d) (h4 : d ≤ daysInMonth Y m) :
    (doyOf m d : Int) < yearStart ((if m ≤ 2 then Y - 1 else Y) + 1) -
      yearStart (if m ≤ 2 then Y - 1 else Y) := by
  have hlen := yearStart_step (if m ≤ 2 then Y - 1 else Y)
  by_cases hm2 : m = 2
  · subst hm2
    simp only [if_pos (by norm_num : (2:Nat) ≤ 2)] at hlen ⊢
    rcases le_or_lt d 28 with hd | hd
    · simp only [doyOf, if_neg (by norm_num : ¬ (2:Nat) > 2)]
      omega
    · have hleap : isLeap Y = true := by
        by_contra hnl
        rw [Bool.not_eq_true] at hnl
        simp [daysInMonth, hnl] at h4
        omega
      have h366 := yearStep_of_leap (Y - 1) (by rw [sub_add_cancel]; exact hleap)
      have hd29 : d ≤ 29 := by
        simp [daysInMonth, hleap] at h4
        exact h4
      simp only [doyOf, if_neg (by norm_num : ¬ (2:Nat) > 2)]
      omega
  · have hd31 : d ≤ 31 := by
      simp only [daysInMonth] at h4
      split at h4
      · omega
      · split at h4
        · omega
        · omega
    by_cases hm1 : m ≤ 2
    · have hm1' : m = 1 := by omega
      subst hm1'
      simp only [doyOf, if_neg (by norm_num : ¬ (1:Nat) > 2),
        if_pos (by norm_num : (1:Nat) ≤ 2)] at hlen ⊢
      omega
    · simp only [doyOf, if_pos (by omega : m > 2), if_neg hm1] at hlen ⊢
      omega

theorem daysInMonth_le_31 (Y : Int) (m : Nat) : daysInMonth Y m ≤ 31 := by
  simp only [daysInMonth]
  split
  · split <;> omega
  · split <;> omega

theorem doyOf_le_305 (m d : Nat) (h1 : 3 ≤ m) (h2 : m ≤ 12) (h3 : d ≤ 31) :
    doyOf m d ≤ 305 := by
  simp only [doyOf, if_pos (by omega : m > 2)]
  omega

theorem doyOf_ge_306 (m d : Nat) (h0 : 1 ≤ m) (h1 : m ≤ 2) (h2 : 1 ≤ d) :
    306 ≤ doyOf m d := by
  simp only [doyOf, if_neg (by omega : ¬ m > 2)]
  omega

theorem doyOf_strict (Y : Int) (m1 d1 m2 d2 : Nat)
    (hm1 : 1 ≤ m1) (hm2 : m1 ≤ 12) (hm3 : 1 ≤ m2) (hm4 : m2 ≤ 12)
    (hd1 : 1 ≤ d1) (hd2 : d1 ≤ daysInMonth Y m1) (hd3 : 1 ≤ d2)
    (hreg : (2 < m1 ↔ 2 < m2))
    (hlt : m1 < m2 ∨ (m1 = m2 ∧ d1 < d2)) :
    doyOf m1 d1 < doyOf m2 d2 := by
  rcases hlt with hlt | ⟨rfl, hlt⟩
  · have hdim : d1 ≤ 31 := le_trans hd2 (daysInMonth_le_31 Y m1)
    have hd30 : (m1 = 4 ∨ m1 = 6 ∨ m1 = 9 ∨ m1 = 11) → d1 ≤ 30 := by
      intro h
      simp only [daysInMonth] at hd2
      rcases h with h | h | h | h <;> subst h <;> simp at hd2 <;> omega
    have hd29 : m1 = 2 → d1 ≤ 29 := by
      intro h
      subst h
      simp only [daysInMonth, if_pos rfl] at hd2
      split at hd2 <;> omega
    simp only [doyOf]
    interval_cases m1 <;> interval_cases m2 <;> simp_all <;> omega
  · simp only [doyOf]
    split <;> omega

theorem toOrdinal_lt_of_ltb (a b : PyDate) (ha : a.isValid = true)
    (hb : b.isValid = true) (h : PyDate.ltb a b = true) :
    a.toOrdinal < b.toOrdinal := by
  obtain ⟨Ya, ma, da⟩ := a
  obtain ⟨Yb, mb, db⟩ := b
  simp only [PyDate.isValid, Bool.and_eq_true, decide_eq_true_eq] at ha hb
  obtain ⟨⟨⟨hma1, hma2⟩, hda1⟩, hda2⟩ := ha
  obtain ⟨⟨⟨hmb1, hmb2⟩, hdb1⟩, hdb2⟩ := hb
  simp only [PyDate.ltb, Bool.or_eq_true, Bool.and_eq_true, decide_eq_true_eq] at h
  rw [toOrdinal_decomp, toOrdinal_decomp]
  simp only
  have hkey : ∀ (s1 s2 : Int) (x1 x2 : Nat), s1 < s2 →
      (x1 : Int) < yearStart (s1 + 1) - yearStart s1 →
      yearStart s1 + (x1 : Int) - 719468 < yearStart s2 + (x2 : Int) - 719468 := by
    intro s1 s2 x1 x2 h1 h2
    have h3 := yearStart_mono (s1 + 1) s2 (by omega)
    have h4 : (0 : Int) ≤ (x2 : Int) := Int.natCast_nonneg x2
    omega
  have hlena := doyOf_lt_len Ya ma da hma1 hma2 hda1 hda2
  have hda31 : da ≤ 31 := le_trans hda2 (daysInMonth_le_31 Ya ma)
  rcases h with hY | ⟨hY, hM⟩
  · by_cases ha2 : ma ≤ 2 <;> by_cases hb2 : mb ≤ 2
    · rw [if_pos ha2] at hlena
      rw [if_pos ha2, if_pos hb2]
      exact hkey _ _ _ _ (by omega) hlena
    · rw [if_pos ha2] at hlena
      rw [if_pos ha2, if_neg hb2]
      exact hkey _ _ _ _ (by omega) hlena
    · rw [if_neg ha2] at hlena
      rw [if_neg ha2, if_pos hb2]
      rcases lt_or_eq_of_le (show Ya ≤ Yb - 1 by omega) with hYY | hYY
      · exact hkey _ _ _ _ (by omega) hlena
      · rw [← hYY]
        have h1 := doyOf_le_305 ma da (by omega) hma2 hda31
        have h2 := doyOf_ge_306 mb db hmb1 hb2 hdb1
        omega
    · rw [if_neg ha2] at hlena
      rw [if_neg ha2, if_neg hb2]
      exact hkey _ _ _ _ (by omega) hlena
  · subst hY
    rcases hM with hm | ⟨hm, hd⟩
    · by_cases ha2 : ma ≤ 2 <;> by_cases hb2 : mb ≤ 2
      · rw [if_pos ha2, if_pos hb2]
        have := doyOf_strict Ya ma da mb db hma1 hma2 hmb1 hmb2 hda1 hda2 hdb1
          (by omega) (Or.inl hm)
        omega
      · rw [if_pos ha2] at hlena
        rw [if_pos ha2, if_neg hb2]
        exact hkey _ _ _ _ (by omega) hlena
      · omega
      · rw [if_neg ha2, if_neg hb2]
        have := doyOf_strict Ya ma da mb db hma1 hma2 hmb1 hmb2 hda1 hda2 hdb1
          (by omega) (Or.inl hm)
        omega
    · subst hm
      have := doyOf_strict Ya ma da ma db hma1 hma2 hma1 hma2 hda1 hda2 hdb1
        (by omega) (Or.inr ⟨rfl, hd⟩)
      by_cases ha2 : ma ≤ 2
      · rw [if_pos ha2]
        omega
      · rw [if_neg ha2]
        omega

theorem fromOrdinal_isValid (z : Int) : (PyDate.fromOrdinal z).isValid = true := by
  simp only [PyDate.fromOrdinal]
  set era := (z + 719468) / 146097 with hera
  set doe := (z + 719468 - era * 146097).toNat with hdoe
  set c := min (doe / 36524) 3 with hc
  set doc := doe - 36524 * c with hdoc
  set q := doc / 1461 with hq
  set doq := doc - 1461 * q with hdoq
  set yq := min (doq / 365) 3 with hyq
  set doy := doq - 365 * yq with hdoy
  set yoe := 100 * c + 4 * q + yq with hyoe
  set mp := (5 * doy + 2) / 153 with hmp
  set d := doy - (153 * mp + 2) / 5 + 1 with hd
  set m := if mp < 10 then mp + 3 else mp - 9 with hm
  clear_value m d mp yoe doy yq doq q doc c doe era
  have hc2 : (doe / 36524 ≤ 3 ∧ c = doe / 36524) ∨ (3 ≤ doe / 36524 ∧ c = 3) := by
    rcases Nat.le_total (doe / 36524) 3 with h | h
    · exact Or.inl ⟨h, by rw [hc]; exact Nat.min_eq_left h⟩
    · exact Or.inr ⟨h, by rw [hc]; exact Nat.min_eq_right h⟩
  have hyq2 : (doq / 365 ≤ 3 ∧ yq = doq / 365) ∨ (3 ≤ doq / 365 ∧ yq = 3) := by
    rcases Nat.le_total (doq / 365) 3 with h | h
    · exact Or.inl ⟨h, by rw [hyq]; exact Nat.min_eq_left h⟩
    · exact Or.inr ⟨h, by rw [hyq]; exact Nat.min_eq_right h⟩
  clear hc hyq
  have hb1 : doe ≤ 146096 := by omega
  have hb3 : doc ≤ 36524 := by omega
  have hb5 : doq ≤ 1460 := by omega
  have hb7 : doy ≤ 365 := by omega
  have hb9 : (153 * mp + 2) / 5 ≤ doy ∧ mp ≤ 11 := by omega
  simp only [PyDate.isValid, Bool.and_eq_true, decide_eq_true_eq]
  by_cases hmp10 : mp < 10
  · have hm3 : m = mp + 3 := by rw [hm, if_pos hmp10]
    have hdtop : 5 * doy + 2 < 153 * (mp + 1) := by omega
    refine ⟨⟨⟨by omega, by omega⟩, by omega⟩, ?_⟩
    subst hm3
    clear hm hera hdoe hc2 hyq2 hdoc hdoq hdoy hyoe hb1 hb3 hb5
    interval_cases mp <;> simp [daysInMonth] <;> omega
  · have hm3 : m = mp - 9 := by rw [hm, if_neg hmp10]
    have hmp11 : mp ≤ 11 := hb9.2
    rcases (show mp = 10 ∨ mp = 11 by omega) with hv | hv
    · have hm1 : m = 1 := by omega
      subst hm1
      refine ⟨⟨⟨by omega, by omega⟩, by omega⟩, ?_⟩
      norm_num [daysInMonth]
      omega
    · have hm2 : m = 2 := by omega
      subst hm2
      refine ⟨⟨⟨by omega, by omega⟩, by omega⟩, ?_⟩
      norm_num [daysInMonth]
      rcases le_or_lt doy 364 with h364 | h364
      · split <;> omega
      · have h365 : doy = 365 := by omega
        have hyq3 : yq = 3 ∧ doq = 1460 := by omega
        have hq24 : q = 24 → c = 3 := by omega
        have hleap : isLeap ((yoe : Int) + era * 400 + 1) = true := by
          simp only [isLeap, Bool.and_eq_true, Bool.or_eq_true, decide_eq_true_eq,
            ne_eq, Bool.not_eq_true, decide_eq_false_iff_not]
          constructor
          · omega
          · rcases (show q = 24 ∨ q < 24 by omega) with h24 | h24
            · exact Or.inr (by have := hq24 h24; omega)
            · exact Or.inl (by omega)
        rw [if_pos hleap]
        omega

/-- Adding days never moves a valid date chronologically backwards. -/
theorem ltb_addDays_eq_false (s : PyDate) (hs : s.isValid = true) (k : Nat) :
    PyDate.ltb (s.addDays k) s = false := by
  by_contra h
  rw [Bool.not_eq_false] at h
  have h2 := toOrdinal_lt_of_ltb _ _
    (by rw [PyDate.addDays]; exact fromOrdinal_isValid _) hs h
  rw [PyDate.addDays, fromOrdinal_toOrdinal] at h2
  omega


theorem mkDate_isValid {y : Int} {m d : Nat} {dd : PyDate}
    (h : mkDate y m d = .ok dd) : dd.isValid = true := by
  simp only [mkDate] at h
  split at h
  · rename_i hcond
    simp only [Bool.and_eq_true, decide_eq_true_eq] at hcond
    cases h
    simp only [PyDate.isValid, Bool.and_eq_true, decide_eq_true_eq]
    exact ⟨⟨⟨hcond.1.1.1.2, hcond.1.1.2⟩, hcond.1.2⟩, hcond.2⟩
  · cases h

theorem parse_yyyy_mm_dd_isValid {t : Str} {rel dd : PyDate}
    (h : parse_yyyy_mm_dd t rel = .ok (some dd)) : dd.isValid = true := by
  simp only [parse_yyyy_mm_dd] at h
  split at h
  · simp at h
  · split at h
    · simp at h
    · rename_i hmk
      simp only [Except.ok.injEq, Option.some.injEq] at h
      exact h ▸ mkDate_isValid hmk
  · split at h
    · simp at h
    · rename_i hmk
      split at h
      · split at h
        · simp at h
        · rename_i hmk2
          simp only [Except.ok.injEq, Option.some.injEq] at h
          exact h ▸ mkDate_isValid hmk2
      · simp only [Except.ok.injEq, Option.some.injEq] at h
        exact h ▸ mkDate_isValid hmk

theorem parse_dow_isValid {t : Str} {rel dd : PyDate}
    (h : parse_dow t rel = some dd) : dd.isValid = true := by
  simp only [parse_dow] at h
  rcases hm : dowMatch (pyLower t) with _ | ⟨i, suffix⟩
  · rw [hm] at h
    simp at h
  · rw [hm] at h
    simp only [Option.some.injEq] at h
    rw [← h, PyDate.subDaysI]
    exact fromOrdinal_isValid _

theorem text_to_date_isValid {t : Str} {rel : Option PyDate} {clock dd : PyDate}
    (hclock : clock.isValid = true)
    (hrel : ∀ r, rel = some r → r.isValid = true)
    (h : text_to_date t rel clock = .ok (some dd)) : dd.isValid = true := by
  have htoday : (rel.getD clock).isValid = true := by
    rcases rel with _ | r
    · exact hclock
    · exact hrel r rfl
  simp only [text_to_date] at h
  split at h
  · simp only [Except.ok.injEq, Option.some.injEq] at h
    rw [← h, PyDate.subDays]
    exact fromOrdinal_isValid _
  · split at h
    · simp only [Except.ok.injEq, Option.some.injEq] at h
      exact h ▸ htoday
    · split at h
      · simp only [Except.ok.injEq, Option.some.injEq] at h
        rw [← h, PyDate.subDays]
        exact fromOrdinal_isValid _
      · split at h
        · exact parse_yyyy_mm_dd_isValid h
        · simp only [Except.ok.injEq] at h
          exact parse_dow_isValid h


/-- Support lemma: behaviour of a single -r pair with a digit count. -/
theorem parse_range_pair (startText count : Str) (clock start : PyDate) (n : Nat)
    (hclock : clock.isValid = true)
    (hstart : text_to_date startText none clock = .ok (some start))
    (hdig : pyIsDigit count = true) (hn : strToNat count = n) :
    (1 ≤ n → n ≤ 999 →
      parse_date_ranges [] [(startText, count)] clock =
        .ok [DateRange.mk start (start.addDays (n - 1))]) ∧
    (n = 0 →
      parse_date_ranges [] [(startText, count)] clock = .error (.notPositive 0)) ∧
    (1000 ≤ n →
      parse_date_ranges [] [(startText, count)] clock = .error (.tooLarge n)) := by
  have hvalid : start.isValid = true :=
    text_to_date_isValid hclock (by intro r hr; cases hr) hstart
  simp only [parse_date_ranges, List.map_nil, List.flatten_nil, parseDateArgs,
    parseRangeArgs, hstart, hdig, Bool.not_true, Bool.false_eq_true, if_neg,
    if_false, hn]
  refine ⟨fun h1 h2 => ?_, fun h0 => ?_, fun h1000 => ?_⟩
  · have hlt := ltb_addDays_eq_false start hvalid (n - 1)
    simp [show ¬ n ≤ 0 by omega, show ¬ n > 999 by omega, hlt,
      List.insertionSort, List.orderedInsert]
  · subst h0
    simp
  · simp [show ¬ n ≤ 0 by omega, show n > 999 by omega]


/-- C8 support: a single -r pair with a non-digit, resolvable second
argument: the range is built from the two dates, with the dates-reversed
error when the end precedes the start. -/
theorem parse_range_pair_end (startText endText : Str) (clock start stop : PyDate)
    (hstart : text_to_date startText none clock = .ok (some start))
    (hnd : pyIsDigit endText = false)
    (hstop : text_to_date endText none clock = .ok (some stop)) :
    parse_date_ranges [] [(startText, endText)] clock =
      (if PyDate.ltb stop start then .error (.revRange stop start)
       else .ok [DateRange.mk start stop]) := by
  simp only [parse_date_ranges, List.map_nil, List.flatten_nil, parseDateArgs,
    parseRangeArgs, hstart, hnd, hstop, Bool.not_false, if_pos]
  by_cases hlt : PyDate.ltb stop start = true
  · simp [hlt]
  · rw [Bool.not_eq_true] at hlt
    simp [hlt, List.insertionSort, List.orderedInsert]

/-- Support lemma: -d items that all resolve to None are skipped without
any effect. -/
theorem parseDateArgs_all_none (clock : PyDate) (items : List Str)
    (acc : List DateRange)
    (h : ∀ i ∈ items, text_to_date i none clock = .ok none) :
    parseDateArgs clock items acc = .ok acc := by
  induction items generalizing acc with
  | nil => rfl
  | cons i rest ih =>
    have hi := h i (List.mem_cons_self i rest)
    simp only [parseDateArgs, hi]
    exact ih acc fun j hj => h j (List.mem_cons_of_mem i hj)


theorem toLower_of_isDigit {c : Char} (h : c.isDigit = true) : c.toLower = c := by
  simp only [Char.isDigit, Bool.and_eq_true, decide_eq_true_eq] at h
  have h1 : c.toNat ≤ 57 := UInt32.toNat_le_of_le (by norm_num) h.2
  simp only [Char.toLower]
  rw [if_neg (by omega)]

theorem pyLower_of_digits {s : Str} (h : s.all Char.isDigit = true) :
    pyLower s = s := by
  simp only [List.all_eq_true] at h
  calc pyLower s = s.map (fun c => c) :=
        List.map_congr_left fun c hc => toLower_of_isDigit (h c hc)
    _ = s := List.map_id' s


/-- C9: an all-digit string shorter than four characters resolves to the
reference date minus that many days, while an all-digit string of length
at least four falls through to ISO-date parsing. -/
theorem C9_test (text : Str) (ref clock : PyDate)
    (hdig : pyIsDigit text = true) :
    (text.length < 4 →
      text_to_date text (some ref) clock = .ok (some (ref.subDays (strToNat text)))) ∧
    (4 ≤ text.length →
      text_to_date text (some ref) clock = parse_yyyy_mm_dd text ref) := by
  have hall : text.all Char.isDigit = true := by
    simp only [pyIsDigit, Bool.and_eq_true] at hdig
    exact hdig.2
  constructor
  · intro hlen
    simp only [text_to_date, Option.getD_some]
    rw [if_pos (by simp [hdig, hlen])]
  · intro hlen
    simp only [text_to_date, Option.getD_some]
    rw [if_neg (by simp [hdig]; omega)]
    rw [pyLower_of_digits hall]
    have hnot_today : ¬ text = "today".toList := by
      intro h
      rw [h] at hdig
      simp [pyIsDigit] at hdig
    have hnot_yester : ¬ "yester".toList.isPrefixOf text = true := by
      intro h
      rw [List.isPrefixOf_iff_prefix] at h
      obtain ⟨t2, ht⟩ := h
      rw [← ht] at hall
      simp at hall
    have htake : pyIsDigit (text.take 2) = true := by
      simp only [pyIsDigit, Bool.and_eq_true]
      constructor
      · have hlt : (text.take 2).length = 2 := by
          rw [List.length_take]
          exact Nat.min_eq_left (by omega)
        rw [Bool.not_eq_true', Bool.eq_false_iff]
        intro h
        rw [List.isEmpty_iff] at h
        rw [h] at hlt
        simp at hlt
      · simp only [List.all_eq_true] at hall ⊢
        intro c hc
        exact hall c (List.mem_of_mem_take hc)
    rw [if_neg hnot_today, if_neg hnot_yester, if_pos htake]


/-! ## Claim-level theorems, counterexamples and witnesses -/

theorem splitOnChar_ne_nil (sep : Char) (s : Str) : splitOnChar sep s ≠ [] := by
  cases s with
  | nil => simp [splitOnChar]
  | cons c cs =>
    simp only [splitOnChar]
    split
    · simp
    · split
      · simp
      · simp

theorem splitOnChar_length (sep : Char) (s : Str) :
    (splitOnChar sep s).length = s.count sep + 1 := by
  induction s with
  | nil => simp [splitOnChar]
  | cons c cs ih =>
    simp only [splitOnChar]
    by_cases hc : c = sep
    · rw [if_pos hc]
      simp [List.count_cons, hc, ih]
    · rw [if_neg hc]
      have hne := splitOnChar_ne_nil sep cs
      match hsp : splitOnChar sep cs with
      | [] => exact absurd hsp hne
      | l :: ls =>
        rw [hsp] at ih
        simp only [List.length_cons] at ih ⊢
        have : (cs.count sep) = ls.length := by omega
        simp [List.count_cons, hc, this]

theorem splitOnChar_of_count_zero (sep : Char) (s : Str)
    (h : s.count sep = 0) : splitOnChar sep s = [s] := by
  induction s with
  | nil => simp [splitOnChar]
  | cons c cs ih =>
    rw [List.count_cons] at h
    have hc : ¬ (c = sep) := by
      intro hh
      simp [hh] at h
    have hcs : List.count sep cs = 0 := by
      simp [hc] at h
      exact h
    simp only [splitOnChar, if_neg hc, ih hcs]

theorem splitOnChar_append_sep (sep : Char) (a b : Str)
    (h : a.count sep = 0) :
    splitOnChar sep (a ++ sep :: b) = a :: splitOnChar sep b := by
  induction a with
  | nil => simp [splitOnChar]
  | cons c cs ih =>
    rw [List.count_cons] at h
    have hc : ¬ (c = sep) := by
      intro hh
      simp [hh] at h
    have hcs : List.count sep cs = 0 := by
      simp [hc] at h
      exact h
    simp only [List.cons_append, splitOnChar, if_neg hc]
    show (match splitOnChar sep (cs ++ sep :: b) with
      | [] => [[c]]
      | l :: ls => (c :: l) :: ls) = (c :: cs) :: splitOnChar sep b
    rw [ih hcs]

/-- C10: a line with exactly one tab whose first field is a well-formed
timestamp parses to a zero-duration entry carrying the second field as its
text; a line whose tab count is not one raises ValueError, and such an
error on a stream line aborts get_entries with that error. -/
theorem C10_test (a b line : Str) (ts : PyDateTime)
    (ranges : List DateRange) (filters : List (Str → Bool)) (rest : List Str)
    (ha : a.count '\t' = 0) (hb : b.count '\t' = 0)
    (hts : parseIsoDateTime a = .ok ts) :
    Entry.from_tsv (a ++ '\t' :: b) = .ok ⟨ts, ts, b⟩ ∧
    (line.count '\t' ≠ 1 → Entry.from_tsv line = .error .valueError) ∧
    (∀ e, Entry.from_tsv line = .error e → ranges ≠ [] →
      get_entries ranges filters (.ok (line :: rest)) = .error e) := by
  refine ⟨?_, ?_, ?_⟩
  · simp only [Entry.from_tsv, splitOnChar_append_sep _ _ _ ha,
      splitOnChar_of_count_zero _ _ hb, hts]
  · intro hcount
    rw [Entry.from_tsv]
    have hlen := splitOnChar_length '\t' line
    match hsp : splitOnChar '\t' line with
    | [] => exact absurd hsp (splitOnChar_ne_nil _ _)
    | [x] => rfl
    | [x, y] =>
      rw [hsp] at hlen
      simp at hlen
      omega
    | x :: y :: z :: w => rfl
  · intro e he hr
    rw [get_entries]
    have : ¬ ranges.isEmpty = true := by
      simp [List.isEmpty_iff, hr]
    rw [if_neg this]
    simp only [getEntriesLoop, he]

theorem getEntriesLoop_mem (ranges : List DateRange) (filters : List (Str → Bool)) :
    ∀ (lines : List Str) (last? : Option Entry) (matching out : List Entry),
    getEntriesLoop ranges filters lines last? matching = .ok out →
    ∀ e ∈ out, e ∈ matching ∨ entryMatches ranges filters e = true := by
  intro lines
  induction lines with
  | nil =>
    intro last? matching out h e he
    simp only [getEntriesLoop, Except.ok.injEq] at h
    subst h
    exact Or.inl he
  | cons line rest ih =>
    intro last? matching out h e he
    rw [getEntriesLoop] at h
    cases hft : Entry.from_tsv line with
    | error err =>
      rw [hft] at h
      exact absurd h (by simp)
    | ok entry =>
      rw [hft] at h
      dsimp only at h
      have hmem2 : ∀ m2 : List Entry,
          m2 = (match last?.map (fun l => { l with begin := entry.cease }) with
            | some l => if entryMatches ranges filters l then matching ++ [l]
                        else matching
            | none => matching) →
          ∀ x ∈ m2, x ∈ matching ∨ entryMatches ranges filters x = true := by
        intro m2 hm2 x hx
        cases last? with
        | none =>
          simp only [Option.map_none'] at hm2
          subst hm2
          exact Or.inl hx
        | some l =>
          simp only [Option.map_some'] at hm2
          by_cases hcond : entryMatches ranges filters { l with begin := entry.cease } = true
          · rw [if_pos hcond] at hm2
            subst hm2
            rcases List.mem_append.mp hx with hx1 | hx2
            · exact Or.inl hx1
            · rcases List.mem_singleton.mp hx2 with rfl
              exact Or.inr hcond
          · rw [if_neg hcond] at hm2
            subst hm2
            exact Or.inl hx
      split at h
      · simp only [Except.ok.injEq] at h
        subst h
        exact hmem2 _ rfl e he
      · rcases ih _ _ _ h e he with hin | hm
        · exact hmem2 _ rfl e hin
        · exact Or.inr hm

theorem entryMatches_not_start {ranges : List DateRange}
    {filters : List (Str → Bool)} {e : Entry}
    (h : entryMatches ranges filters e = true) : is_start e = false := by
  simp only [entryMatches, Bool.and_eq_true, Bool.not_eq_true'] at h
  exact h.1.1

/-- C1: every entry get_entries returns has a text that does not start
with the day-start marker sentinel (amended claim: emitted entries are
never markers themselves; begin times can still be inherited from a
marker line, see the counterexample). -/
theorem C1_test (ranges : List DateRange) (filters : List (Str → Bool))
    (source : LineSource) (out : List Entry)
    (h : get_entries ranges filters source = .ok out) :
    ∀ e ∈ out, default_start_text.isPrefixOf e.text = false := by
  intro e he
  rw [get_entries] at h
  split at h
  · simp only [Except.ok.injEq] at h
    subst h
    exact absurd he (List.not_mem_nil e)
  · split at h
    · exact absurd h (by simp)
    · rename_i lines
      dsimp only at h
      split at h
      · exact absurd h (by simp)
      · rename_i matching hloop
        simp only [Except.ok.injEq] at h
        subst h
        have hperm := List.perm_insertionSort
          (fun a b => Entry.leb a b = true) matching
        have hmem : e ∈ matching := hperm.mem_iff.mp he
        rcases getEntriesLoop_mem _ _ _ _ _ _ hloop e hmem with h0 | hm
        · exact absurd h0 (List.not_mem_nil e)
        · exact entryMatches_not_start hm

/-- C1 counterexample: a stream with a marker line between two entries;
the emitted entry inherits the marker line's cease timestamp as its
begin, refuting the no-inheritance half of the claim. -/
theorem C1_cex :
    Entry.from_tsv ("2020-01-02 09:00:00\t*~*~*--------------------".toList) =
      .ok ⟨⟨⟨2020, 1, 2⟩, 9 * 3600⟩, ⟨⟨2020, 1, 2⟩, 9 * 3600⟩,
        default_start_text⟩ ∧
    get_entries [⟨⟨2020, 1, 1⟩, ⟨2020, 1, 31⟩⟩] []
      (.ok ["2020-01-02 10:00:00\tTask A".toList,
            "2020-01-02 09:00:00\t*~*~*--------------------".toList,
            "2020-01-02 08:00:00\tTask B".toList]) =
      .ok [⟨⟨⟨2020, 1, 2⟩, 9 * 3600⟩, ⟨⟨2020, 1, 2⟩, 10 * 3600⟩,
        "Task A".toList⟩] := by
  exact ⟨by decide, by decide⟩

theorem PyDateTime.ltb_iff (a b : PyDateTime) : PyDateTime.ltb a b = true ↔
    (a.date.year < b.date.year ∨ (a.date.year = b.date.year ∧
      (a.date.month < b.date.month ∨ (a.date.month = b.date.month ∧
        (a.date.day < b.date.day ∨ (a.date.day = b.date.day ∧
          a.sod < b.sod)))))) := by
  obtain ⟨⟨ay, am, ad⟩, asod⟩ := a
  obtain ⟨⟨cy, cm, cd⟩, csod⟩ := b
  simp [PyDateTime.ltb, PyDate.ltb, PyDate.mk.injEq]
  constructor
  · rintro (h | h) <;> omega
  · intro h
    omega

theorem PyDateTime.ltb_trichotomy (a b : PyDateTime) :
    PyDateTime.ltb a b = true ∨ PyDateTime.ltb b a = true ∨ a = b := by
  obtain ⟨⟨ay, am, ad⟩, asod⟩ := a
  obtain ⟨⟨cy, cm, cd⟩, csod⟩ := b
  simp [PyDateTime.ltb_iff, PyDateTime.mk.injEq, PyDate.mk.injEq]
  omega

theorem PyDateTime.ltb_trans {a b c : PyDateTime}
    (h1 : PyDateTime.ltb a b = true) (h2 : PyDateTime.ltb b c = true) :
    PyDateTime.ltb a c = true := by
  obtain ⟨⟨ay, am, ad⟩, asod⟩ := a
  obtain ⟨⟨yy, ym, yd⟩, ysod⟩ := b
  obtain ⟨⟨cy, cm, cd⟩, csod⟩ := c
  simp [PyDateTime.ltb_iff] at h1 h2 ⊢
  omega

theorem strLtb_trichotomy : ∀ a b : Str,
    strLtb a b = true ∨ strLtb b a = true ∨ a = b
  | [], [] => Or.inr (Or.inr rfl)
  | [], _ :: _ => Or.inl rfl
  | _ :: _, [] => Or.inr (Or.inl rfl)
  | a :: as, b :: bs => by
    rcases lt_trichotomy a b with hab | hab | hab
    · exact Or.inl (by simp [strLtb, hab])
    · subst hab
      rcases strLtb_trichotomy as bs with h | h | h
      · exact Or.inl (by simp [strLtb, h])
      · exact Or.inr (Or.inl (by simp [strLtb, h]))
      · exact Or.inr (Or.inr (by rw [h]))
    · exact Or.inr (Or.inl (by simp [strLtb, hab]))

theorem strLtb_trans : ∀ {a b c : Str},
    strLtb a b = true → strLtb b c = true → strLtb a c = true
  | [], [], _ => by intro h1 _; simp [strLtb] at h1
  | [], _ :: _, [] => by intro _ h2; simp [strLtb] at h2
  | [], _ :: _, _ :: _ => by intro _ _; rfl
  | _ :: _, [], _ => by intro h1 _; simp [strLtb] at h1
  | _ :: _, _ :: _, [] => by intro _ h2; simp [strLtb] at h2
  | a :: as, b :: bs, c :: cs => by
    intro h1 h2
    simp only [strLtb, Bool.or_eq_true, Bool.and_eq_true, decide_eq_true_eq] at h1 h2 ⊢
    rcases h1 with h1 | ⟨rfl, h1⟩
    · rcases h2 with h2 | ⟨rfl, h2⟩
      · exact Or.inl (lt_trans h1 h2)
      · exact Or.inl h1
    · rcases h2 with h2 | ⟨rfl, h2⟩
      · exact Or.inl h2
      · exact Or.inr ⟨rfl, strLtb_trans h1 h2⟩

theorem Entry.leb_iff (a b : Entry) : Entry.leb a b = true ↔
    (PyDateTime.ltb a.begin b.begin = true ∨ (a.begin = b.begin ∧
      (PyDateTime.ltb a.cease b.cease = true ∨ (a.cease = b.cease ∧
        (strLtb a.text b.text = true ∨ a.text = b.text))))) := by
  simp [Entry.leb, Bool.or_eq_true, Bool.and_eq_true, decide_eq_true_eq]

theorem Entry.leb_total (a b : Entry) :
    Entry.leb a b = true ∨ Entry.leb b a = true := by
  rw [Entry.leb_iff, Entry.leb_iff]
  rcases PyDateTime.ltb_trichotomy a.begin b.begin with h | h | h
  · exact Or.inl (Or.inl h)
  · exact Or.inr (Or.inl h)
  · rcases PyDateTime.ltb_trichotomy a.cease b.cease with h2 | h2 | h2
    · exact Or.inl (Or.inr ⟨h, Or.inl h2⟩)
    · exact Or.inr (Or.inr ⟨h.symm, Or.inl h2⟩)
    · rcases strLtb_trichotomy a.text b.text with h3 | h3 | h3
      · exact Or.inl (Or.inr ⟨h, Or.inr ⟨h2, Or.inl h3⟩⟩)
      · exact Or.inr (Or.inr ⟨h.symm, Or.inr ⟨h2.symm, Or.inl h3⟩⟩)
      · exact Or.inl (Or.inr ⟨h, Or.inr ⟨h2, Or.inr h3⟩⟩)

theorem Entry.leb_trans {a b c : Entry}
    (h1 : Entry.leb a b = true) (h2 : Entry.leb b c = true) :
    Entry.leb a c = true := by
  rw [Entry.leb_iff] at h1 h2 ⊢
  rcases h1 with h1 | ⟨e1, h1⟩
  · rcases h2 with h2 | ⟨e2, h2⟩
    · exact Or.inl (PyDateTime.ltb_trans h1 h2)
    · exact Or.inl (e2 ▸ h1)
  · rcases h2 with h2 | ⟨e2, h2⟩
    · exact Or.inl (e1 ▸ h2)
    · refine Or.inr ⟨e1.trans e2, ?_⟩
      rcases h1 with h1 | ⟨f1, h1⟩
      · rcases h2 with h2 | ⟨f2, h2⟩
        · exact Or.inl (PyDateTime.ltb_trans h1 h2)
        · exact Or.inl (f2 ▸ h1)
      · rcases h2 with h2 | ⟨f2, h2⟩
        · exact Or.inl (f1 ▸ h2)
        · refine Or.inr ⟨f1.trans f2, ?_⟩
          rcases h1 with h1 | h1
          · rcases h2 with h2 | h2
            · exact Or.inl (strLtb_trans h1 h2)
            · exact Or.inl (h2 ▸ h1)
          · rcases h2 with h2 | h2
            · exact Or.inl (h1 ▸ h2)
            · exact Or.inr (h1.trans h2)

theorem Entry.leb_begin {a b : Entry} (h : Entry.leb a b = true) :
    PyDateTime.leb a.begin b.begin = true := by
  rw [Entry.leb_iff] at h
  rcases h with h | ⟨e, _⟩
  · simp [PyDateTime.leb, h]
  · simp [PyDateTime.leb, e]

/-- The premise of the reconstruction claims: consecutive lines of the
(reverse-ordered) stream carry strictly descending timestamps wherever
both parse. -/
def parsedDescending : List Str → Bool
  | [] => true
  | [_] => true
  | l1 :: l2 :: rest =>
    (match Entry.from_tsv l1, Entry.from_tsv l2 with
     | .ok e1, .ok e2 => PyDateTime.ltb e2.cease e1.cease
     | _, _ => true) && parsedDescending (l2 :: rest)

theorem parsedDescending_cons {l1 : Str} {rest : List Str}
    (h : parsedDescending (l1 :: rest) = true) :
    parsedDescending rest = true ∧
    (∀ l2 ∈ rest.head?, ∀ e1 e2, Entry.from_tsv l1 = .ok e1 →
      Entry.from_tsv l2 = .ok e2 →
      PyDateTime.ltb e2.cease e1.cease = true) := by
  cases rest with
  | nil =>
    refine ⟨rfl, ?_⟩
    intro l2 hl2
    simp at hl2
  | cons l2 r =>
    rw [parsedDescending, Bool.and_eq_true] at h
    refine ⟨h.2, ?_⟩
    intro l2' hl2' e1 e2 h1 h2
    simp only [List.head?_cons, Option.mem_def, Option.some.injEq] at hl2'
    subst hl2'
    have := h.1
    rw [h1, h2] at this
    exact this

theorem getEntriesLoop_sound (ranges : List DateRange)
    (filters : List (Str → Bool)) :
    ∀ (lines : List Str) (last? : Option Entry) (matching out : List Entry),
    parsedDescending lines = true →
    (∀ l, last? = some l → ∀ line1 ∈ lines.head?, ∀ e1,
      Entry.from_tsv line1 = .ok e1 →
      PyDateTime.ltb e1.cease l.cease = true) →
    getEntriesLoop ranges filters lines last? matching = .ok out →
    ∀ e ∈ out, e ∈ matching ∨ (entryMatches ranges filters e = true ∧
      PyDateTime.ltb e.begin e.cease = true) := by
  intro lines
  induction lines with
  | nil =>
    intro last? matching out _ _ h e he
    simp only [getEntriesLoop, Except.ok.injEq] at h
    subst h
    exact Or.inl he
  | cons line rest ih =>
    intro last? matching out hdesc hlast h e he
    obtain ⟨hdrest, hpair⟩ := parsedDescending_cons hdesc
    rw [getEntriesLoop] at h
    cases hft : Entry.from_tsv line with
    | error err =>
      rw [hft] at h
      exact absurd h (by simp)
    | ok entry =>
      rw [hft] at h
      dsimp only at h
      have hmem2 : ∀ m2 : List Entry,
          m2 = (match last?.map (fun l => { l with begin := entry.cease }) with
            | some l => if entryMatches ranges filters l then matching ++ [l]
                        else matching
            | none => matching) →
          ∀ x ∈ m2, x ∈ matching ∨ (entryMatches ranges filters x = true ∧
            PyDateTime.ltb x.begin x.cease = true) := by
        intro m2 hm2 x hx
        cases hl? : last? with
        | none =>
          rw [hl?] at hm2
          simp only [Option.map_none'] at hm2
          subst hm2
          exact Or.inl hx
        | some l =>
          rw [hl?] at hm2
          simp only [Option.map_some'] at hm2
          by_cases hcond : entryMatches ranges filters
              { l with begin := entry.cease } = true
          · rw [if_pos hcond] at hm2
            subst hm2
            rcases List.mem_append.mp hx with hx1 | hx2
            · exact Or.inl hx1
            · rcases List.mem_singleton.mp hx2 with rfl
              refine Or.inr ⟨hcond, ?_⟩
              show PyDateTime.ltb entry.cease l.cease = true
              exact hlast l hl? line (by simp) entry hft
          · rw [if_neg hcond] at hm2
            subst hm2
            exact Or.inl hx
      split at h
      · simp only [Except.ok.injEq] at h
        subst h
        exact hmem2 _ rfl e he
      · have hlast' : ∀ l, (if is_start entry then none else some entry) = some l →
            ∀ line1 ∈ rest.head?, ∀ e1, Entry.from_tsv line1 = .ok e1 →
            PyDateTime.ltb e1.cease l.cease = true := by
          intro l hl line1 hline1 e1 h1
          by_cases hst : is_start entry = true
          · rw [if_pos hst] at hl
            exact absurd hl (by simp)
          · rw [if_neg hst] at hl
            cases hl
            exact hpair line1 hline1 entry e1 hft h1
        rcases ih _ _ _ hdrest hlast' h e he with hin | hm
        · exact hmem2 _ rfl e hin
        · exact Or.inr hm

/-- C2: with a non-empty range list and a stream whose parsed timestamps
are strictly descending, every returned entry begins inside one of the
requested ranges and ends no earlier than it begins, and the returned
list is sorted ascending by begin. -/
theorem C2_test (R : List DateRange) (filters : List (Str → Bool))
    (lines : List Str) (out : List Entry)
    (hne : R ≠ [])
    (hdesc : parsedDescending lines = true)
    (h : get_entries R filters (.ok lines) = .ok out) :
    (∀ e ∈ out, (∃ r ∈ R, r.containsDT e.begin = true) ∧
      PyDateTime.leb e.begin e.cease = true) ∧
    List.Pairwise (fun a b => PyDateTime.leb a.begin b.begin = true) out := by
  rw [get_entries] at h
  split at h
  · simp only [Except.ok.injEq] at h
    subst h
    exact ⟨fun e he => absurd he (List.not_mem_nil e), List.Pairwise.nil⟩
  · dsimp only at h
    split at h
    · exact absurd h (by simp)
    · rename_i matching hloop
      simp only [Except.ok.injEq] at h
      subst h
      haveI htot : IsTotal Entry (fun a b => Entry.leb a b = true) :=
        ⟨Entry.leb_total⟩
      haveI htr : IsTrans Entry (fun a b => Entry.leb a b = true) :=
        ⟨fun _ _ _ h1 h2 => Entry.leb_trans h1 h2⟩
      constructor
      · intro e he
        have hmem : e ∈ matching :=
          (List.perm_insertionSort (fun a b => Entry.leb a b = true)
            matching).mem_iff.mp he
        have hlast0 : ∀ l, (none : Option Entry) = some l →
            ∀ line1 ∈ lines.head?, ∀ e1, Entry.from_tsv line1 = .ok e1 →
            PyDateTime.ltb e1.cease l.cease = true := by
          intro l hl
          exact absurd hl (by simp)
        rcases getEntriesLoop_sound _ _ _ _ _ _ hdesc hlast0 hloop e hmem
          with h0 | ⟨hm, hlt⟩
        · exact absurd h0 (List.not_mem_nil e)
        · constructor
          · simp only [entryMatches, Bool.and_eq_true] at hm
            have hany := hm.1.2
            rw [List.any_eq_true] at hany
            obtain ⟨r, hr, hrc⟩ := hany
            refine ⟨r, ?_, hrc⟩
            exact (List.perm_insertionSort
              (fun a b => (!DateRange.ltb b a) = true) R).mem_iff.mp hr
          · simp [PyDateTime.leb, hlt]
      · have hs := List.sorted_insertionSort
          (fun a b => Entry.leb a b = true) matching
        exact List.Pairwise.imp (fun hab => Entry.leb_begin hab) hs

theorem splitOnChar_cons_of_sep (sep c : Char) (hc : c = sep) (cs : Str) :
    splitOnChar sep (c :: cs) = [] :: splitOnChar sep cs := by
  rw [splitOnChar, if_pos hc]

theorem splitOnChar_cons_of_nosep (sep c : Char) (hc : ¬ c = sep)
    (cs l : Str) (ls : List Str) (h : splitOnChar sep cs = l :: ls) :
    splitOnChar sep (c :: cs) = (c :: l) :: ls := by
  rw [splitOnChar]
  rw [if_neg hc, h]

theorem mergeLast_ne_nil (xs : List Str) (s : Str) : mergeLast xs s ≠ [] := by
  cases xs with
  | nil => simp [mergeLast]
  | cons x xs' =>
    cases xs' with
    | nil => simp [mergeLast]
    | cons y ys => simp [mergeLast]

theorem mergeLast_cons (x : Str) (xs : List Str) (s : Str) (h : xs ≠ []) :
    mergeLast (x :: xs) s = x :: mergeLast xs s := by
  cases xs with
  | nil => exact absurd rfl h
  | cons y ys => rfl

theorem split_append_cons (sep : Char) :
    ∀ (rest buffer hb : Str) (tb : List Str),
    splitOnChar sep buffer = hb :: tb →
    splitOnChar sep (rest ++ buffer) =
      mergeLast (splitOnChar sep rest) hb ++ tb := by
  intro rest
  induction rest with
  | nil =>
    intro buffer hb tb h
    simp only [List.nil_append, h, splitOnChar, mergeLast]
    rfl
  | cons c rest' ih =>
    intro buffer hb tb h
    by_cases hc : c = sep
    · rw [List.cons_append, splitOnChar_cons_of_sep sep c hc,
        splitOnChar_cons_of_sep sep c hc, ih buffer hb tb h,
        mergeLast_cons _ _ _ (splitOnChar_ne_nil sep rest')]
      rfl
    · cases hsa : splitOnChar sep rest' with
      | nil => exact absurd hsa (splitOnChar_ne_nil sep rest')
      | cons h' t' =>
        have hrec := ih buffer hb tb h
        rw [hsa] at hrec
        cases t' with
        | nil =>
          rw [List.cons_append,
            splitOnChar_cons_of_nosep sep c hc _ _ _ hrec,
            splitOnChar_cons_of_nosep sep c hc _ _ _ hsa]
          simp [mergeLast]
        | cons y ys =>
          rw [mergeLast_cons h' (y :: ys) hb (by simp),
            List.cons_append] at hrec
          rw [List.cons_append,
            splitOnChar_cons_of_nosep sep c hc _ _ _ hrec,
            splitOnChar_cons_of_nosep sep c hc _ _ _ hsa,
            mergeLast_cons (c :: h') (y :: ys) hb (by simp)]
          rfl

theorem split_append_nosep (sep : Char) (a b : Str) (hb : b.count sep = 0) :
    splitOnChar sep (a ++ b) = mergeLast (splitOnChar sep a) b := by
  rw [split_append_cons sep a b b [] (splitOnChar_of_count_zero sep b hb)]
  simp

theorem split_pieces_no_sep (sep : Char) : ∀ (xs : Str),
    ∀ l ∈ splitOnChar sep xs, l.count sep = 0 := by
  intro xs
  induction xs with
  | nil =>
    intro l hl
    simp [splitOnChar] at hl
    subst hl
    rfl
  | cons c cs ih =>
    intro l hl
    by_cases hc : c = sep
    · rw [splitOnChar_cons_of_sep sep c hc] at hl
      rcases List.mem_cons.mp hl with rfl | hl2
      · rfl
      · exact ih l hl2
    · cases hsa : splitOnChar sep cs with
      | nil => exact absurd hsa (splitOnChar_ne_nil sep cs)
      | cons h t =>
        rw [splitOnChar_cons_of_nosep sep c hc _ _ _ hsa] at hl
        rcases List.mem_cons.mp hl with rfl | hl2
        · have hh : h.count sep = 0 := ih h (hsa ▸ List.mem_cons_self h t)
          simp [List.count_cons, hh, hc]
        · exact ih l (hsa ▸ List.mem_cons_of_mem h hl2)

theorem mergeLast_append_last (ys : List Str) (z s : Str) :
    mergeLast (ys ++ [z]) s = ys ++ [z ++ s] := by
  induction ys with
  | nil => rfl
  | cons y ys' ih =>
    rw [List.cons_append, mergeLast_cons y (ys' ++ [z]) s (by simp), ih]
    rfl

theorem endsSep_split (sep : Char) (xs : Str)
    (h : xs.getLast? = some sep) :
    ∃ ys, splitOnChar sep xs = ys ++ [([] : Str)] ∧ ys ≠ [] := by
  have hne : xs ≠ [] := by
    intro he
    rw [he] at h
    exact Option.noConfusion h
  have hgl : xs.getLast hne = sep := by
    have h2 := List.getLast?_eq_getLast xs hne
    rw [h2] at h
    exact Option.some.inj h
  have hdecomp : xs = xs.dropLast ++ [sep] := by
    conv_lhs => rw [← List.dropLast_append_getLast hne]
    rw [hgl]
  have hsep : splitOnChar sep [sep] = [[], []] := by
    simp [splitOnChar]
  have h3 := split_append_cons sep xs.dropLast [sep] [] [[]] hsep
  rw [← hdecomp] at h3
  refine ⟨mergeLast (splitOnChar sep xs.dropLast) [], ?_,
    mergeLast_ne_nil _ _⟩
  rw [h3]

theorem filter_nonempty (xs : List Str) (h : ∀ l ∈ xs, l ≠ []) :
    xs.filter (fun l => !l.isEmpty) = xs := by
  rw [List.filter_eq_self]
  intro a ha
  simp [List.isEmpty_iff]
  exact h a ha

theorem keyEq (p buffer rest hb s : Str) (tb : List Str)
    (hp : p = rest ++ buffer) (hsb : splitOnChar '\n' buffer = hb :: tb)
    (htb : tb ≠ []) (hs : s.count '\n' = 0) :
    splitOnChar '\n' (p ++ s) =
      splitOnChar '\n' (rest ++ hb) ++ mergeLast tb s := by
  have hbs : splitOnChar '\n' (buffer ++ s) = hb :: mergeLast tb s := by
    rw [split_append_nosep '\n' buffer s hs, hsb,
      mergeLast_cons hb tb s htb]
  have h1 := split_append_cons '\n' rest (buffer ++ s) hb (mergeLast tb s) hbs
  have hhb : hb.count '\n' = 0 :=
    split_pieces_no_sep '\n' buffer hb (hsb ▸ List.mem_cons_self hb tb)
  have h2 : splitOnChar '\n' (rest ++ hb) =
      mergeLast (splitOnChar '\n' rest) hb :=
    split_append_nosep '\n' rest hb hhb
  rw [hp, List.append_assoc, h1, h2]

theorem keyEqNone (p buffer rest hb : Str) (tb : List Str)
    (hp : p = rest ++ buffer) (hsb : splitOnChar '\n' buffer = hb :: tb)
    (htb : tb ≠ []) :
    splitOnChar '\n' p = splitOnChar '\n' (rest ++ hb) ++ tb := by
  have h1 := split_append_cons '\n' rest buffer hb tb hsb
  have hhb : hb.count '\n' = 0 :=
    split_pieces_no_sep '\n' buffer hb (hsb ▸ List.mem_cons_self hb tb)
  have h2 : splitOnChar '\n' (rest ++ hb) =
      mergeLast (splitOnChar '\n' rest) hb :=
    split_append_nosep '\n' rest hb hhb
  rw [hp, h1, h2]

theorem keyEq0 (p buffer rest hb s : Str)
    (hp : p = rest ++ buffer) (hsb : splitOnChar '\n' buffer = [hb])
    (hs : s.count '\n' = 0) :
    splitOnChar '\n' (p ++ s) = splitOnChar '\n' (rest ++ (hb ++ s)) := by
  have hhb : hb.count '\n' = 0 :=
    split_pieces_no_sep '\n' buffer hb (hsb ▸ List.mem_cons_self hb [])
  have hbs : splitOnChar '\n' (buffer ++ s) = [hb ++ s] := by
    rw [split_append_nosep '\n' buffer s hs, hsb]
    rfl
  have h1 := split_append_cons '\n' rest (buffer ++ s) (hb ++ s) [] hbs
  have h2 := split_append_nosep '\n' rest (hb ++ s)
    (by rw [List.count_append, hhb, hs])
  rw [hp, List.append_assoc, h1, h2]
  simp

theorem rrLoop_inv (buf : Nat) (hbuf : 1 ≤ buf) :
    ∀ (fuel : Nat) (p s : Str), p.length ≤ fuel →
    s.count '\n' = 0 →
    (∀ l ∈ splitOnChar '\n' (p ++ s), l ≠ []) →
    rrLoop buf fuel p (some s) =
      (splitOnChar '\n' (p ++ s)).reverse := by
  intro fuel
  induction fuel with
  | zero =>
    intro p s hlen hs _
    have hp : p = [] := List.eq_nil_of_length_eq_zero (Nat.le_zero.mp hlen)
    subst hp
    simp [rrLoop, splitOnChar_of_count_zero '\n' s hs]
  | succ fuel ih =>
    intro p s hlen hs hmem
    by_cases hpe : p = []
    · subst hpe
      simp [rrLoop, splitOnChar_of_count_zero '\n' s hs]
    · have hplen : 1 ≤ p.length := List.length_pos.mpr hpe
      rw [rrLoop]
      rw [if_neg (by simp [List.isEmpty_iff, hpe])]
      dsimp only
      have hpdecomp : p = p.take (p.length - buf) ++ p.drop (p.length - buf) :=
        (List.take_append_drop _ p).symm
      have hbufne : p.drop (p.length - buf) ≠ [] := by
        rw [← List.length_pos, List.length_drop]
        omega
      have hrestlen : (p.take (p.length - buf)).length ≤ fuel := by
        rw [List.length_take]
        omega
      cases hsb : splitOnChar '\n' (p.drop (p.length - buf)) with
      | nil => exact absurd hsb (splitOnChar_ne_nil _ _)
      | cons hb tb =>
        have hhb : hb.count '\n' = 0 :=
          split_pieces_no_sep '\n' _ hb (hsb ▸ List.mem_cons_self hb tb)
        by_cases hnl : (p.drop (p.length - buf)).getLast? = some '\n'
        · -- chunk ends with a newline: yield the pending segment as a line
          rw [if_pos hnl, if_pos hnl]
          obtain ⟨ys, hys, hysne⟩ := endsSep_split '\n' _ hnl
          rw [hsb] at hys
          cases ys with
          | nil => exact absurd rfl hysne
          | cons y ys' =>
            rw [List.cons_append, List.cons.injEq] at hys
            obtain ⟨rfl, rfl⟩ := hys
            have htbne : ys' ++ [([] : Str)] ≠ [] := by simp
            have hkey := keyEq p _ _ hb s (ys' ++ [[]]) hpdecomp hsb htbne hs
            rw [mergeLast_append_last ys' [] s, List.nil_append] at hkey
            have hmem' : ∀ l ∈ splitOnChar '\n'
                (p.take (p.length - buf) ++ hb), l ≠ [] := by
              intro l hl
              refine hmem l ?_
              rw [hkey]
              exact List.mem_append_left _ hl
            have hys'mem : ∀ l ∈ ys', l ≠ [] := by
              intro l hl
              refine hmem l ?_
              rw [hkey]
              exact List.mem_append_right _ (List.mem_append_left _ hl)
            dsimp only [List.headI, List.tail]
            rw [ih _ hb hrestlen hhb hmem', hkey]
            have hfoldrev : (ys' ++ [([] : Str)]).reverse =
                [] :: ys'.reverse := by simp
            rw [hfoldrev]
            rw [show List.filter (fun l => !l.isEmpty)
                ([] :: ys'.reverse) =
              List.filter (fun l => !l.isEmpty) ys'.reverse from rfl]
            rw [filter_nonempty ys'.reverse
              (fun l hl => hys'mem l (List.mem_reverse.mp hl))]
            simp
        · -- chunk does not end with a newline: glue the segment on
          rw [if_neg hnl, if_neg hnl]
          cases tb with
          | nil =>
            have hkey := keyEq0 p _ _ hb s hpdecomp hsb hs
            have hcnt : (hb ++ s).count '\n' = 0 := by
              rw [List.count_append, hhb, hs]
            have hmem' : ∀ l ∈ splitOnChar '\n'
                (p.take (p.length - buf) ++ (hb ++ s)), l ≠ [] := by
              intro l hl
              refine hmem l ?_
              rw [hkey]
              exact hl
            dsimp only [mergeLast, List.headI, List.tail]
            rw [ih _ (hb ++ s) hrestlen hcnt hmem']
            rw [hkey]
            simp
          | cons t1 ts =>
            have htbne : t1 :: ts ≠ [] := by simp
            have hkey := keyEq p _ _ hb s (t1 :: ts) hpdecomp hsb htbne hs
            have hmem' : ∀ l ∈ splitOnChar '\n'
                (p.take (p.length - buf) ++ hb), l ≠ [] := by
              intro l hl
              refine hmem l ?_
              rw [hkey]
              exact List.mem_append_left _ hl
            have hmlmem : ∀ l ∈ mergeLast (t1 :: ts) s, l ≠ [] := by
              intro l hl
              refine hmem l ?_
              rw [hkey]
              exact List.mem_append_right _ hl
            rw [mergeLast_cons hb (t1 :: ts) s htbne]
            dsimp only [List.headI, List.tail]
            rw [ih _ hb hrestlen hhb hmem']
            rw [hkey]
            rw [filter_nonempty (mergeLast (t1 :: ts) s).reverse
              (fun l hl => hmlmem l (List.mem_reverse.mp hl))]
            simp

/-- The lines of a file as Python's str.split("\n") sees them, with the
empty piece after a trailing newline dropped (a file "a\nb\n" has lines
["a", "b"]). -/
def fileLines (content : Str) : List Str :=
  if content.getLast? = some '\n' then (splitOnChar '\n' content).dropLast
  else splitOnChar '\n' content

/-- C3: for a file all of whose lines are non-empty, reverse_readline
returns exactly the file's lines in reverse order for every buffer size
of at least one byte, and an empty file yields no lines (amended claim:
with empty lines present the output depends on the buffer size, see the
counterexample). -/
theorem C3_test (content : Str) (buf : Nat) (hbuf : 1 ≤ buf)
    (hlines : ∀ l ∈ fileLines content, l ≠ []) :
    reverse_readline content buf = (fileLines content).reverse ∧
    reverse_readline [] buf = [] := by
  constructor
  case right => simp [reverse_readline, rrLoop]
  case left =>
  by_cases hpe : content = []
  · exfalso
    refine hlines [] ?_ rfl
    subst hpe
    simp [fileLines, splitOnChar]
  · have hplen : 1 ≤ content.length := List.length_pos.mpr hpe
    cases hfl : content.length with
    | zero => omega
    | succ f =>
      rw [reverse_readline, hfl, rrLoop]
      rw [if_neg (by simp [List.isEmpty_iff, hpe])]
      dsimp only
      have hpdecomp : content =
          content.take (content.length - buf) ++
            content.drop (content.length - buf) :=
        (List.take_append_drop _ content).symm
      have hbufne : content.drop (content.length - buf) ≠ [] := by
        rw [← List.length_pos, List.length_drop]
        omega
      have hrestlen : (content.take (content.length - buf)).length ≤ f := by
        rw [List.length_take]
        omega
      have hglast : content.getLast? =
          (content.drop (content.length - buf)).getLast? := by
        obtain ⟨c, hc⟩ : ∃ c, (content.drop (content.length - buf)).getLast?
            = some c := by
          cases hcc : (content.drop (content.length - buf)).getLast? with
          | none =>
            rw [List.getLast?_eq_none_iff] at hcc
            exact absurd hcc hbufne
          | some c => exact ⟨c, rfl⟩
        conv_lhs => rw [hpdecomp]
        rw [List.getLast?_append, hc]
        rfl
      cases hsb : splitOnChar '\n' (content.drop (content.length - buf)) with
      | nil => exact absurd hsb (splitOnChar_ne_nil _ _)
      | cons hb tb =>
        have hhb : hb.count '\n' = 0 :=
          split_pieces_no_sep '\n' _ hb (hsb ▸ List.mem_cons_self hb tb)
        by_cases hnl : (content.drop (content.length - buf)).getLast? =
            some '\n'
        · obtain ⟨ys, hys, hysne⟩ := endsSep_split '\n' _ hnl
          rw [hsb] at hys
          cases ys with
          | nil => exact absurd rfl hysne
          | cons y ys' =>
            rw [List.cons_append, List.cons.injEq] at hys
            obtain ⟨rfl, rfl⟩ := hys
            have htbne : ys' ++ [([] : Str)] ≠ [] := by simp
            have hkey := keyEqNone content _ _ hb (ys' ++ [[]])
              hpdecomp hsb htbne
            have hfile : fileLines content =
                splitOnChar '\n' (content.take (content.length - buf) ++ hb)
                  ++ ys' := by
              rw [fileLines, if_pos (hglast.trans hnl ▸ rfl), hkey,
                ← List.append_assoc, List.dropLast_concat]
            have hmem' : ∀ l ∈ splitOnChar '\n'
                (content.take (content.length - buf) ++ hb), l ≠ [] := by
              intro l hl
              refine hlines l ?_
              rw [hfile]
              exact List.mem_append_left _ hl
            have hys'mem : ∀ l ∈ ys', l ≠ [] := by
              intro l hl
              refine hlines l ?_
              rw [hfile]
              exact List.mem_append_right _ hl
            dsimp only [List.headI, List.tail]
            rw [rrLoop_inv buf hbuf f _ hb hrestlen hhb hmem', hfile]
            have hfoldrev : (ys' ++ [([] : Str)]).reverse =
                [] :: ys'.reverse := by simp
            rw [hfoldrev]
            rw [show List.filter (fun l => !l.isEmpty)
                ([] :: ys'.reverse) =
              List.filter (fun l => !l.isEmpty) ys'.reverse from rfl]
            rw [filter_nonempty ys'.reverse
              (fun l hl => hys'mem l (List.mem_reverse.mp hl))]
            simp
        · have hfile0 : fileLines content = splitOnChar '\n' content := by
            rw [fileLines, if_neg (by rw [hglast]; exact hnl)]
          cases tb with
          | nil =>
            have hkey := keyEq0 content _ _ hb [] hpdecomp hsb rfl
            rw [List.append_nil, List.append_nil] at hkey
            have hmem' : ∀ l ∈ splitOnChar '\n'
                (content.take (content.length - buf) ++ hb), l ≠ [] := by
              intro l hl
              refine hlines l ?_
              rw [hfile0, hkey]
              exact hl
            dsimp only [List.headI, List.tail]
            rw [rrLoop_inv buf hbuf f _ hb hrestlen hhb hmem', hfile0, hkey]
            simp
          | cons t1 ts =>
            have htbne : t1 :: ts ≠ [] := by simp
            have hkey := keyEqNone content _ _ hb (t1 :: ts)
              hpdecomp hsb htbne
            have hmem' : ∀ l ∈ splitOnChar '\n'
                (content.take (content.length - buf) ++ hb), l ≠ [] := by
              intro l hl
              refine hlines l ?_
              rw [hfile0, hkey]
              exact List.mem_append_left _ hl
            have htbmem : ∀ l ∈ t1 :: ts, l ≠ [] := by
              intro l hl
              refine hlines l ?_
              rw [hfile0, hkey]
              exact List.mem_append_right _ hl
            dsimp only [List.headI, List.tail]
            rw [rrLoop_inv buf hbuf f _ hb hrestlen hhb hmem', hfile0, hkey]
            rw [filter_nonempty (t1 :: ts).reverse
              (fun l hl => htbmem l (List.mem_reverse.mp hl))]
            simp

/-- C3 counterexample: the same file read with buffer sizes 5 and 1
gives different outputs; the file's empty line is dropped at size 5 and
yielded at size 1. -/
theorem C3_cex :
    reverse_readline "a\n\nb\n".toList 5 = ["b".toList, "a".toList] ∧
    reverse_readline "a\n\nb\n".toList 1 =
      ["b".toList, [], "a".toList] := by
  exact ⟨by decide, by decide⟩

/-- C4: a read query on an absent path returns no entries only when the
range list is empty; with a non-empty range list it raises
FileNotFoundError, while an empty file always yields zero entries and no
error (amended claim). -/
theorem C4_test (ranges : List DateRange) (filters : List (Str → Bool)) :
    get_entries_from none ranges filters =
      (if ranges.isEmpty then .ok [] else .error .fileNotFound) ∧
    get_entries_from (some []) ranges filters = .ok [] := by
  constructor
  · by_cases hE : ranges.isEmpty = true
    · simp [get_entries_from, get_entries, hE]
    · simp [get_entries_from, get_entries, hE, reverse_readline_path]
  · by_cases hE : ranges.isEmpty = true
    · simp [get_entries_from, get_entries, hE]
    · simp [get_entries_from, get_entries, hE, reverse_readline_path,
        reverse_readline, rrLoop, getEntriesLoop]

/-- C4 counterexample: an absent file with one requested range raises
FileNotFoundError instead of returning zero entries. -/
theorem C4_cex :
    get_entries_from none [⟨⟨2020, 1, 1⟩, ⟨2020, 1, 2⟩⟩] [] =
      .error .fileNotFound := by
  decide


theorem dowMatch_shape {t : Str} {i : Nat} {suffix : Str}
    (h : dowMatch t = some (i, suffix)) :
    suffix = t.drop 3 ∧ suffix.all Char.isDigit = true ∧
    ((i = 0 ∧ "mon".toList.isPrefixOf t = true) ∨
     (i = 1 ∧ "tue".toList.isPrefixOf t = true) ∨
     (i = 2 ∧ "wed".toList.isPrefixOf t = true) ∨
     (i = 3 ∧ "thu".toList.isPrefixOf t = true) ∨
     (i = 4 ∧ "fri".toList.isPrefixOf t = true) ∨
     (i = 5 ∧ "sat".toList.isPrefixOf t = true) ∨
     (i = 6 ∧ "sun".toList.isPrefixOf t = true)) := by
  rcases hidx : dowIdx t with _ | j
  · simp [dowMatch, hidx] at h
  · simp only [dowMatch, hidx] at h
    split at h
    · rename_i hdig
      simp only [Option.some.injEq, Prod.mk.injEq] at h
      obtain ⟨hij, hs⟩ := h
      refine ⟨hs.symm, hs ▸ hdig, ?_⟩
      simp only [dowIdx] at hidx
      subst hij
      split at hidx
      · rename_i hpre
        simp only [Option.some.injEq] at hidx
        subst hidx
        exact Or.inl ⟨rfl, hpre⟩
      · split at hidx
        · rename_i hpre
          simp only [Option.some.injEq] at hidx
          subst hidx
          exact Or.inr (Or.inl ⟨rfl, hpre⟩)
        · split at hidx
          · rename_i hpre
            simp only [Option.some.injEq] at hidx
            subst hidx
            exact Or.inr (Or.inr (Or.inl ⟨rfl, hpre⟩))
          · split at hidx
            · rename_i hpre
              simp only [Option.some.injEq] at hidx
              subst hidx
              exact Or.inr (Or.inr (Or.inr (Or.inl ⟨rfl, hpre⟩)))
            · split at hidx
              · rename_i hpre
                simp only [Option.some.injEq] at hidx
                subst hidx
                exact Or.inr (Or.inr (Or.inr (Or.inr (Or.inl ⟨rfl, hpre⟩))))
              · split at hidx
                · rename_i hpre
                  simp only [Option.some.injEq] at hidx
                  subst hidx
                  exact Or.inr (Or.inr (Or.inr (Or.inr (Or.inr (Or.inl ⟨rfl, hpre⟩)))))
                · split at hidx
                  · rename_i hpre
                    simp only [Option.some.injEq] at hidx
                    subst hidx
                    exact Or.inr (Or.inr (Or.inr (Or.inr (Or.inr (Or.inr (⟨rfl, hpre⟩))))))
                  · exact Option.noConfusion hidx
    · simp at h


theorem parse_dow_formula (text : Str) (ref : PyDate) (i : Nat) (suffix : Str)
    (hmatch : dowMatch (pyLower text) = some (i, suffix)) :
    parse_dow text ref =
      some (ref.subDaysI (get_last_dow (i : Int) ref.weekday +
        (if suffix.isEmpty then 0 else 7 * (max 0 ((strToNat suffix : Int) - 1))))) ∧
    1 ≤ get_last_dow (i : Int) ref.weekday ∧ get_last_dow (i : Int) ref.weekday ≤ 7 := by
  obtain ⟨hs, hdig, hdisj⟩ := dowMatch_shape hmatch
  have hi : i ≤ 6 := by
    rcases hdisj with ⟨h,_⟩|⟨h,_⟩|⟨h,_⟩|⟨h,_⟩|⟨h,_⟩|⟨h,_⟩|⟨h,_⟩ <;> omega
  have hw : 0 ≤ ref.weekday ∧ ref.weekday < 7 := by
    unfold PyDate.weekday
    exact ⟨Int.emod_nonneg _ (by norm_num), Int.emod_lt_of_pos _ (by norm_num)⟩
  refine ⟨?_, ?_, ?_⟩
  · simp only [parse_dow, hmatch]
    by_cases he : suffix.isEmpty <;> simp [he]
  · simp only [get_last_dow]
    split <;> omega
  · simp only [get_last_dow]
    split <;> omega

theorem text_to_date_dow (text : Str) (ref clock : PyDate) (i : Nat) (suffix : Str)
    (hmatch : dowMatch (pyLower text) = some (i, suffix)) :
    text_to_date text (some ref) clock = .ok (parse_dow (pyLower text) clock) := by
  obtain ⟨hs, hdig, hdisj⟩ := dowMatch_shape hmatch
  rcases hdisj with ⟨_, hpre⟩|⟨_, hpre⟩|⟨_, hpre⟩|⟨_, hpre⟩|⟨_, hpre⟩|⟨_, hpre⟩|⟨_, hpre⟩ <;>
  · obtain ⟨rest, hrest⟩ := List.isPrefixOf_iff_prefix.mp hpre
    have e1 : pyIsDigit text = false := by
      rw [Bool.eq_false_iff]
      intro hcon
      have hlow : pyLower text = text := by
        apply pyLower_of_digits
        simp only [pyIsDigit, Bool.and_eq_true] at hcon
        exact hcon.2
      rw [hlow] at hrest
      rw [← hrest] at hcon
      simp [pyIsDigit] at hcon
    have e2 : ¬(pyLower text = "today".toList) := by
      intro hcon
      rw [← hrest] at hcon
      simp at hcon
    have e3 : ("yester".toList.isPrefixOf (pyLower text)) = false := by
      rw [← hrest]
      rfl
    have e4 : pyIsDigit ((pyLower text).take 2) = false := by
      rw [← hrest]
      rfl
    simp only [text_to_date, Option.getD_some, e1, Bool.false_and, Bool.false_eq_true,
      if_false, if_neg e2, e3, if_neg (Bool.false_ne_true), e4]


theorem mkDate_ok_shape {y : Int} {m d : Nat} {c : PyDate}
    (h : mkDate y m d = .ok c) :
    c = ⟨y, m, d⟩ ∧ 1 ≤ y ∧ y ≤ 9999 ∧ 1 ≤ m ∧ m ≤ 12 ∧ 1 ≤ d ∧ d ≤ daysInMonth y m := by
  simp only [mkDate] at h
  split at h
  · rename_i hc
    simp only [Bool.and_eq_true, decide_eq_true_eq] at hc
    cases h
    exact ⟨rfl, hc.1.1.1.1.1, hc.1.1.1.1.2, hc.1.1.1.2, hc.1.1.2, hc.1.2, hc.2⟩
  · cases h

theorem PyDate.ltb_lex_iff (a b : PyDate) : PyDate.ltb a b = true ↔
    (a.year < b.year ∨ (a.year = b.year ∧
      (a.month < b.month ∨ (a.month = b.month ∧ a.day < b.day)))) := by
  simp [PyDate.ltb, Bool.or_eq_true, Bool.and_eq_true, decide_eq_true_eq]

theorem PyDate.leb_lex_iff (a b : PyDate) : PyDate.leb a b = true ↔
    (PyDate.ltb a b = true ∨ a = b) := by
  simp [PyDate.leb, Bool.or_eq_true, decide_eq_true_eq]

/-- C6: parse_yyyy_mm_dd returns None when the regex does not match, and
a month/day-only match resolves to the most recent calendar date with
that month and day strictly before the reference date, subtracting one
year when needed (amended claim: regex-shaped but calendar-invalid
inputs still raise ValueError, see the counterexample). -/
theorem C6_rollback (text : Str) (rel : PyDate) :
    (regexYyyyMmDd text = none → parse_yyyy_mm_dd text rel = .ok none) ∧
    (∀ (m d : Nat) (day : PyDate), regexYyyyMmDd text = some (none, m, d) →
      parse_yyyy_mm_dd text rel = .ok (some day) →
      PyDate.ltb day rel = true ∧ day.month = m ∧ day.day = d ∧
      (day.year = rel.year ∨ day.year = rel.year - 1) ∧
      ∀ (y : Int) (c : PyDate), mkDate y m d = .ok c → PyDate.ltb c rel = true →
        y ≤ day.year) := by
  constructor
  · intro h
    simp [parse_yyyy_mm_dd, h]
  · obtain ⟨ry, rm, rd⟩ := rel
    intro m d day hreg hp
    simp only [parse_yyyy_mm_dd, hreg] at hp
    split at hp
    · exact absurd hp (by simp)
    · rename_i day0 hmk0
      obtain ⟨hshape0, hb0⟩ := mkDate_ok_shape hmk0
      split at hp
      · rename_i hge
        split at hp
        · exact absurd hp (by simp)
        · rename_i day2 hmk2
          simp only [Except.ok.injEq, Option.some.injEq] at hp
          obtain ⟨hsh2, hb2⟩ := mkDate_ok_shape hmk2
          subst hp
          subst hsh2
          refine ⟨?_, rfl, rfl, Or.inr rfl, ?_⟩
          · rw [PyDate.ltb_lex_iff]
            refine Or.inl ?_
            show ry - 1 < ry
            omega
          · intro y c hmk hlt
            obtain ⟨hcs, hbc⟩ := mkDate_ok_shape hmk
            subst hcs
            subst hshape0
            simp [PyDate.ltb_lex_iff, PyDate.leb_lex_iff, PyDate.mk.injEq] at hlt hge
            show y ≤ ry - 1
            omega
      · rename_i hlt0
        simp only [Except.ok.injEq, Option.some.injEq] at hp
        subst hp
        subst hshape0
        refine ⟨?_, rfl, rfl, Or.inl rfl, ?_⟩
        · simp [PyDate.ltb_lex_iff, PyDate.leb_lex_iff, PyDate.mk.injEq] at hlt0 ⊢
          push_neg at hlt0
          omega
        · intro y c hmk hlt
          obtain ⟨hcs, hbc⟩ := mkDate_ok_shape hmk
          subst hcs
          simp [PyDate.ltb_lex_iff] at hlt
          show y ≤ ry
          omega

/-- C7: an unresolvable date string used as either endpoint of a -r
range makes parse_date_ranges raise an invalid-date error naming the
offending text (amended claim: an unresolvable -d item is silently
dropped instead, see the counterexample). -/
theorem C7_test (clock : PyDate) (a b : Str)
    (dateArgs : List Str) (rest : List (Str × Str)) (dr : List DateRange)
    (hd : parseDateArgs clock ((dateArgs.map (splitOnChar ',')).flatten) []
      = .ok dr) :
    (text_to_date a none clock = .ok none →
      parse_date_ranges dateArgs ((a, b) :: rest) clock =
        .error (.invalidDate a)) ∧
    (∀ start, text_to_date a none clock = .ok (some start) →
      pyIsDigit b = false → text_to_date b none clock = .ok none →
      parse_date_ranges dateArgs ((a, b) :: rest) clock =
        .error (.invalidDate b)) := by
  constructor
  · intro hbad
    simp only [parse_date_ranges, hd, parseRangeArgs, hbad]
  · intro start hstart hbd hbad
    simp only [parse_date_ranges, hd, parseRangeArgs, hstart, hbd,
      Bool.not_false, if_pos, hbad]

/-- C7 counterexample: the unresolvable -d item "bogus" is silently
dropped and parse_date_ranges succeeds with no ranges and no error. -/
theorem C7_cex :
    text_to_date "bogus".toList none ⟨2020, 6, 1⟩ = .ok none ∧
    parse_date_ranges ["bogus".toList] [] ⟨2020, 6, 1⟩ = .ok [] := by
  exact ⟨by decide, by decide⟩

/-- C5: on a lowercase day-of-week expression, text_to_date resolves
against the ambient clock date rather than the supplied reference date:
the result is the clock minus get_last_dow(W, clock.weekday) plus 7*(n-1)
days, the day shift always lying in 1..7 (the day-of-week branch of the
code ignores its `relative` argument). -/
theorem C5_test (text : Str) (ref clock : PyDate) (i : Nat) (suffix : Str)
    (hlow : pyLower text = text)
    (hmatch : dowMatch text = some (i, suffix)) :
    text_to_date text (some ref) clock =
      .ok (some (clock.subDaysI (get_last_dow (i : Int) clock.weekday +
        (if suffix.isEmpty then 0
         else 7 * (max 0 ((strToNat suffix : Int) - 1)))))) ∧
    1 ≤ get_last_dow (i : Int) clock.weekday ∧
    get_last_dow (i : Int) clock.weekday ≤ 7 := by
  have hm2 : dowMatch (pyLower text) = some (i, suffix) := by
    rw [hlow]
    exact hmatch
  have hf := parse_dow_formula text clock i suffix hm2
  rw [text_to_date_dow text ref clock i suffix hm2, hlow, hf.1]
  exact ⟨rfl, hf.2⟩

/-- C8: for a resolvable start date and a digit second argument of value
n, parse_date_ranges returns the single range start..start+(n-1) days
whose days count is n when 1 <= n <= 999, raises a must-be-positive
error for n = 0 and a too-large error for n >= 1000; for a date-valued
second argument it raises the dates-reversed hint exactly when the
resolved end precedes the start. -/
theorem C8_test (startText count : Str) (clock start : PyDate) (n : Nat)
    (hclock : clock.isValid = true)
    (hstart : text_to_date startText none clock = .ok (some start))
    (hdig : pyIsDigit count = true) (hn : strToNat count = n) :
    (1 ≤ n → n ≤ 999 →
      parse_date_ranges [] [(startText, count)] clock =
        .ok [DateRange.mk start (start.addDays (n - 1))] ∧
      (DateRange.mk start (start.addDays (n - 1))).days = (n : Int)) ∧
    (n = 0 →
      parse_date_ranges [] [(startText, count)] clock =
        .error (.notPositive 0)) ∧
    (1000 ≤ n →
      parse_date_ranges [] [(startText, count)] clock =
        .error (.tooLarge n)) ∧
    (∀ endText stop, pyIsDigit endText = false →
      text_to_date endText none clock = .ok (some stop) →
      parse_date_ranges [] [(startText, endText)] clock =
        (if PyDate.ltb stop start then .error (.revRange stop start)
         else .ok [DateRange.mk start stop])) := by
  obtain ⟨h1, h2, h3⟩ :=
    parse_range_pair startText count clock start n hclock hstart hdig hn
  refine ⟨fun ha hb => ⟨h1 ha hb, ?_⟩, h2, h3, fun endText stop hnd hstop =>
    parse_range_pair_end startText endText clock start stop hstart hnd hstop⟩
  show (PyDate.addDays start (n - 1)).toOrdinal - start.toOrdinal + 1 = (n : Int)
  rw [PyDate.addDays, fromOrdinal_toOrdinal]
  omega

/-- C6 counterexample: the regex-shaped inputs "02-30", and "0229"
resolved against a non-leap reference year, raise ValueError instead of
falling through. -/
theorem C6_cex :
    parse_yyyy_mm_dd "02-30".toList ⟨2020, 6, 1⟩ = .error .valueError ∧
    parse_yyyy_mm_dd "0229".toList ⟨2019, 6, 1⟩ = .error .valueError := by
  exact ⟨by decide, by decide⟩

theorem C1_witness :
    default_start_text.isPrefixOf
      (⟨⟨⟨2021, 1, 2⟩, 9 * 3600⟩, ⟨⟨2021, 1, 2⟩, 10 * 3600⟩,
        "Gamma".toList⟩ : Entry).text = false :=
  C1_test [⟨⟨2021, 1, 1⟩, ⟨2021, 1, 31⟩⟩] []
    (.ok ["2021-01-02 10:00:00\tGamma".toList,
          "2021-01-02 09:00:00\tDelta".toList])
    [⟨⟨⟨2021, 1, 2⟩, 9 * 3600⟩, ⟨⟨2021, 1, 2⟩, 10 * 3600⟩,
      "Gamma".toList⟩]
    (by decide)
    ⟨⟨⟨2021, 1, 2⟩, 9 * 3600⟩, ⟨⟨2021, 1, 2⟩, 10 * 3600⟩, "Gamma".toList⟩
    (by decide)

theorem C2_witness :
    (∀ e ∈ [(⟨⟨⟨2021, 2, 3⟩, 9 * 3600⟩, ⟨⟨2021, 2, 3⟩, 10 * 3600⟩,
        "Alpha".toList⟩ : Entry)],
      (∃ r ∈ [(⟨⟨2021, 2, 1⟩, ⟨2021, 2, 28⟩⟩ : DateRange)],
        r.containsDT e.begin = true) ∧
      PyDateTime.leb e.begin e.cease = true) ∧
    List.Pairwise (fun a b => PyDateTime.leb a.begin b.begin = true)
      [(⟨⟨⟨2021, 2, 3⟩, 9 * 3600⟩, ⟨⟨2021, 2, 3⟩, 10 * 3600⟩,
        "Alpha".toList⟩ : Entry)] :=
  C2_test [⟨⟨2021, 2, 1⟩, ⟨2021, 2, 28⟩⟩] []
    ["2021-02-03 10:00:00\tAlpha".toList,
     "2021-02-03 09:00:00\tBeta".toList] _
    (by decide) (by decide) (by decide)

theorem C3_witness :
    reverse_readline "one\ntwo\n".toList 3 =
      (fileLines "one\ntwo\n".toList).reverse ∧
    reverse_readline [] 3 = [] :=
  C3_test "one\ntwo\n".toList 3 (by decide) (by decide)

theorem C5_witness :
    text_to_date "mon".toList (some ⟨2020, 6, 3⟩) ⟨2020, 6, 10⟩ =
      .ok (some ⟨2020, 6, 8⟩) := by
  have h := (C5_test "mon".toList ⟨2020, 6, 3⟩ ⟨2020, 6, 10⟩ 0 []
    (by decide) (by decide)).1
  rw [h]
  decide

theorem C6_witness :
    PyDate.ltb ⟨2020, 5, 15⟩ ⟨2020, 6, 1⟩ = true ∧
    (⟨2020, 5, 15⟩ : PyDate).month = 5 ∧
    (⟨2020, 5, 15⟩ : PyDate).day = 15 ∧
    ((⟨2020, 5, 15⟩ : PyDate).year = (⟨2020, 6, 1⟩ : PyDate).year ∨
     (⟨2020, 5, 15⟩ : PyDate).year = (⟨2020, 6, 1⟩ : PyDate).year - 1) ∧
    ∀ (y : Int) (c : PyDate), mkDate y 5 15 = .ok c →
      PyDate.ltb c ⟨2020, 6, 1⟩ = true → y ≤ (⟨2020, 5, 15⟩ : PyDate).year :=
  (C6_rollback "05-15".toList ⟨2020, 6, 1⟩).2 5 15 ⟨2020, 5, 15⟩
    (by decide) (by decide)

theorem C7_witness :
    parse_date_ranges [] [("nope".toList, "5".toList)] ⟨2021, 3, 4⟩ =
      .error (.invalidDate "nope".toList) :=
  (C7_test ⟨2021, 3, 4⟩ "nope".toList "5".toList [] [] [] rfl).1 (by decide)

theorem C8_witness :
    parse_date_ranges [] [("2020-01-01".toList, "7".toList)] ⟨2021, 6, 1⟩ =
      .ok [⟨⟨2020, 1, 1⟩, ⟨2020, 1, 7⟩⟩] ∧
    DateRange.days ⟨⟨2020, 1, 1⟩, ⟨2020, 1, 7⟩⟩ = 7 := by
  have h := (C8_test "2020-01-01".toList "7".toList ⟨2021, 6, 1⟩
    ⟨2020, 1, 1⟩ 7 (by decide) (by decide) (by decide) rfl).1
    (by decide) (by decide)
  constructor
  · rw [h.1]
    decide
  · decide

theorem C9_witness :
    text_to_date "101".toList (some ⟨2020, 6, 1⟩) ⟨2020, 6, 1⟩ =
      .ok (some (PyDate.subDays ⟨2020, 6, 1⟩ 101)) ∧
    text_to_date "0101".toList (some ⟨2020, 6, 1⟩) ⟨2020, 6, 1⟩ =
      parse_yyyy_mm_dd "0101".toList ⟨2020, 6, 1⟩ :=
  ⟨(C9_test "101".toList ⟨2020, 6, 1⟩ ⟨2020, 6, 1⟩ (by decide)).1 (by decide),
   (C9_test "0101".toList ⟨2020, 6, 1⟩ ⟨2020, 6, 1⟩ (by decide)).2 (by decide)⟩

theorem C10_witness :
    Entry.from_tsv ("2022-03-04 05:06:07".toList ++ '\t' :: "Note".toList) =
      .ok ⟨⟨⟨2022, 3, 4⟩, 5 * 3600 + 6 * 60 + 7⟩,
        ⟨⟨2022, 3, 4⟩, 5 * 3600 + 6 * 60 + 7⟩, "Note".toList⟩ ∧
    ("garbage".toList.count '\t' ≠ 1 →
      Entry.from_tsv "garbage".toList = .error .valueError) ∧
    (∀ e, Entry.from_tsv "garbage".toList = .error e →
      [(⟨⟨2022, 3, 1⟩, ⟨2022, 3, 31⟩⟩ : DateRange)] ≠ [] →
      get_entries [⟨⟨2022, 3, 1⟩, ⟨2022, 3, 31⟩⟩] []
        (.ok ["garbage".toList]) = .error e) :=
  C10_test "2022-03-04 05:06:07".toList "Note".toList "garbage".toList
    ⟨⟨2022, 3, 4⟩, 5 * 3600 + 6 * 60 + 7⟩
    [⟨⟨2022, 3, 1⟩, ⟨2022, 3, 31⟩⟩] [] []
    (by decide) (by decide) (by decide)

end Idid
